import Mathlib

/-!
Verification of the graph-diameter package (`node.go`).

The Go code keeps a symbol table `map[nodeName]nodeID`, a node map
`map[nodeID]*node` where each `node` stores its adjacency as a
`map[nodeID]*node`, and computes the diameter by running one BFS
(`longestShortestPath`) from every node and taking the maximum depth.

Shallow embedding choices:
* `nodeID` (Go `int32`, assigned `0,1,2,…` as `nodeID(len(symbolTable))`)
  is modelled as `Nat`; the ids the program assigns are the consecutive
  non-negative integers, far from any `int32` overflow concern here.
* Go maps are modelled as association lists (`List (String × Nat)` for the
  symbol table, `List Node` keyed by `Node.id` for the node map, the key set
  of a `node.adj` map as a duplicate-free `List Nat`).  Map iteration order
  is fixed to list order.
* The `*node` pointers stored in `adj` and in the BFS queue are represented
  by the node ids; the pointed-to node is recovered by `findNode`, which for
  graphs built through `addEdge` is exactly the map entry the pointer
  references.
* The unbounded `for { … }` BFS loop becomes the fuelled `bfsLoop`; the fuel
  supplied by `lspS` is proven sufficient (`bfsLoop` never returns `none` on
  it), mirroring the fact that the Go loop terminates.
* Mutation is modelled by explicit state passing: `getN`, `lspS` and
  `diameterS` return the (possibly) updated node map alongside their result.
-/

/-- One vertex of the graph: Go `type node struct { id nodeID; adj map[nodeID]*node }`.
`adj` holds the key set of the Go adjacency map (the pointers are recovered
from the node map by id). -/
structure Node where
  id : Nat
  adj : List Nat
deriving Repr, DecidableEq

/-- Go `func (n *node) add(adjNode *node) { n.adj[adjNode.id] = adjNode }`:
map insertion, which leaves the key set unchanged when the key is present. -/
def Node.add (n : Node) (j : Nat) : Node :=
  if j ∈ n.adj then n else { n with adj := n.adj ++ [j] }

/-- Go `nodes map[nodeID]*node`, as a list of entries keyed by `Node.id`. -/
abbrev Nodes := List Node

/-- Lookup of a node by id (Go `n, ok := nodes[id]`). -/
def findNode : Nodes → Nat → Option Node
  | [], _ => none
  | n :: ns, i => if n.id = i then some n else findNode ns i

/-- The ids present in the node map. -/
def idsOf (ns : Nodes) : List Nat := ns.map Node.id

/-- Go `func (nodes nodes) get(id nodeID) *node`: return the node with this
id, inserting a fresh node with empty adjacency when absent.  The second
component is the node map after the call (Go mutates it in place). -/
def getN (ns : Nodes) (i : Nat) : Node × Nodes :=
  match findNode ns i with
  | some n => (n, ns)
  | none => (⟨i, []⟩, ns ++ [⟨i, []⟩])

/-- Point update of the node with id `i` (in Go, mutation through the
`*node` pointer stored in the map). -/
def updN (ns : Nodes) (i : Nat) (f : Node → Node) : Nodes :=
  ns.map (fun n => if n.id = i then f n else n)

/-- Go `func (nodes *nodes) addEdge(a, b nodeID)`:
`an := nodes.get(a); bn := nodes.get(b); an.add(bn); bn.add(an)`. -/
def addEdgeN (ns : Nodes) (a b : Nat) : Nodes :=
  let ns1 := (getN ns a).2
  let ns2 := (getN ns1 b).2
  updN (updN ns2 a (fun n => n.add b)) b (fun n => n.add a)

/-- Adjacency key set of the node with id `u` (empty for an absent id). -/
def adjOf (ns : Nodes) (u : Nat) : List Nat :=
  match findNode ns u with
  | some n => n.adj
  | none => []

/-- The keys of the Go `bfsData map[nodeID]bfsNode`.  An id is "discovered"
exactly when it is a key: every stored `bfsNode` has a non-nil `parent`, so
the Go test `bm.parent == nil` is key absence. -/
def keysD (data : List (Nat × Nat)) : List Nat := data.map Prod.fst

/-- `bfsData[id].depth`, with the Go zero value `0` for an absent key. -/
def lookupD : List (Nat × Nat) → Nat → Nat
  | [], _ => 0
  | p :: ps, i => if p.1 = i then p.2 else lookupD ps i

/-- Body of the Go `for id, m := range n.adj` loop: an undiscovered neighbor
is recorded at depth `bfsData[n.id].depth + 1` and pushed on the queue. -/
def bfsStepFold (n : Nat) (acc : List Nat × List (Nat × Nat)) (m : Nat) :
    List Nat × List (Nat × Nat) :=
  if m ∈ keysD acc.2 then acc
  else (acc.1 ++ [m], acc.2 ++ [(m, lookupD acc.2 n + 1)])

/-- All ids occurring in some adjacency list; its length bounds the number of
ids the BFS can ever discover beyond the start node. -/
def allTargets (ns : Nodes) : List Nat := (ns.map Node.adj).flatten

/-- The Go `for { elt := q.Front(); … }` loop of `longestShortestPath`,
with explicit fuel.  Returns the last dequeued id together with the final
`bfsData` once the queue is empty; `none` only if the fuel runs out (which
the supplied fuel never lets happen). -/
def bfsLoop (ns : Nodes) : Nat → List Nat → List (Nat × Nat) → Nat →
    Option (Nat × List (Nat × Nat))
  | _, [], data, last => some (last, data)
  | 0, _ :: _, _, _ => none
  | fuel + 1, n :: q, data, last =>
    let s := (adjOf ns n).foldl (bfsStepFold n) (q, data)
    let _ := last
    bfsLoop ns fuel s.1 s.2 n

/-- Go `func (nodes nodes) longestShortestPath(start nodeID) int`, with the
node map returned alongside the result because `nodes.get(start)` can insert
a node.  The fuel `2 * |allTargets| + 2` strictly dominates the loop's
decreasing measure, so the `none` branch is dead code (proven below). -/
def lspS (ns : Nodes) (start : Nat) : Nat × Nodes :=
  let p := getN ns start
  match bfsLoop p.2 (2 * (allTargets p.2).length + 2) [p.1.id] [(p.1.id, 0)] p.1.id with
  | some r => (lookupD r.2 r.1, p.2)
  | none => (0, p.2)

/-- The value `longestShortestPath` returns. -/
def lspN (ns : Nodes) (start : Nat) : Nat := (lspS ns start).1

/-- Go `func (nodes nodes) diameter() int`: running maximum of
`longestShortestPath(id)` over all nodes (`if df > diameter` is `max`). -/
def diameterN (ns : Nodes) : Nat :=
  ns.foldl (fun d n => max d (lspN ns n.id)) 0

/-- `diameter` with the node-map state threaded through each
`longestShortestPath` call, to express that the traversals never change the
persistent structure. -/
def diameterS (ns : Nodes) : Nat × Nodes :=
  ns.foldl (fun acc n =>
    let r := lspS acc.2 n.id
    (max acc.1 r.1, r.2)) (0, ns)

/-- Go `symbolTable map[nodeName]nodeID`, as an association list. -/
abbrev SymTab := List (String × Nat)

/-- Association-list lookup (Go `id, ok := s[name]`). -/
def lookupName : SymTab → String → Option Nat
  | [], _ => none
  | p :: ps, a => if p.1 = a then some p.2 else lookupName ps a

/-- Go `func (s symbolTable) getID(name nodeName) nodeID`: existing id, or
`nodeID(len(s))` freshly recorded. -/
def getID (s : SymTab) (a : String) : Nat × SymTab :=
  match lookupName s a with
  | some i => (i, s)
  | none => (s.length, s ++ [(a, s.length)])

/-- Go `type Graph struct { symbolTable; nodes }`. -/
structure Graph where
  symtab : SymTab
  nodes : Nodes
deriving Repr, DecidableEq

/-- Go `func New() *Graph`. -/
def Graph.new : Graph := ⟨[], []⟩

/-- Go `func (g *Graph) addEdge(a, b nodeName)`. -/
def Graph.addEdge (g : Graph) (a b : String) : Graph :=
  let pa := getID g.symtab a
  let pb := getID pa.2 b
  { symtab := pb.2, nodes := addEdgeN g.nodes pa.1 pb.1 }

/-- The graph built by a sequence of `addEdge` calls on a fresh graph. -/
def buildGraph (es : List (String × String)) : Graph :=
  es.foldl (fun g e => g.addEdge e.1 e.2) Graph.new

/-- Go `Diameter()` on the full graph. -/
def Graph.diameter (g : Graph) : Nat := diameterN g.nodes

/-- `Diameter()` with the node-map state made explicit. -/
def Graph.diameterStateful (g : Graph) : Nat × Graph :=
  let r := diameterS g.nodes
  (r.1, { symtab := g.symtab, nodes := r.2 })

/-- A walk of `k` edge hops from `u` to `v` along the adjacency structure. -/
inductive PathLen (ns : Nodes) : Nat → Nat → Nat → Prop
  | refl (u : Nat) : PathLen ns u u 0
  | step {u v w k : Nat} : v ∈ adjOf ns u → PathLen ns v w k → PathLen ns u w (k + 1)

/-- `v` is reachable from `u` (same connected component once adjacency is
symmetric). -/
def Reach (ns : Nodes) (u v : Nat) : Prop := ∃ k, PathLen ns u v k

/-- `d` is the shortest-path hop distance from `u` to `v`. -/
def IsDist (ns : Nodes) (u v d : Nat) : Prop :=
  PathLen ns u v d ∧ ∀ k, PathLen ns u v k → d ≤ k

/-- `r` is the eccentricity of `s`: an upper bound on the distance from `s`
to every node reachable from `s`, and attained. -/
def IsEcc (ns : Nodes) (s r : Nat) : Prop :=
  (∀ u d, IsDist ns s u d → d ≤ r) ∧ ∃ u, IsDist ns s u r

/-- `r` is the diameter: an upper bound on the distance between every pair of
nodes in a common component, and attained unless it is `0`. -/
def DiamSpec (ns : Nodes) (r : Nat) : Prop :=
  (∀ u v d, IsDist ns u v d → d ≤ r) ∧ (r = 0 ∨ ∃ u v, IsDist ns u v r)

/-- Loop invariant of the BFS of `longestShortestPath` (and, with `q = []`,
its postcondition). -/
structure BfsInv (ns : Nodes) (start : Nat) (q : List Nat)
    (data : List (Nat × Nat)) (last : Nat) : Prop where
  keys_nd : (keysD data).Nodup
  q_nd : q.Nodup
  q_sub : ∀ i ∈ q, i ∈ keysD data
  start_mem : start ∈ keysD data
  start_zero : lookupD data start = 0
  path_of : ∀ i ∈ keysD data, PathLen ns start i (lookupD data i)
  last_mem : last ∈ keysD data
  proc_closed : ∀ i ∈ keysD data, i ∉ q → ∀ v ∈ adjOf ns i,
    v ∈ keysD data ∧ lookupD data v ≤ lookupD data i + 1
  proc_le : ∀ i ∈ keysD data, i ∉ q → lookupD data i ≤ lookupD data last
  last_le_q : ∀ i ∈ q, lookupD data last ≤ lookupD data i
  q_le : ∀ i ∈ q, lookupD data i ≤ lookupD data last + 1
  q_sorted : q.Pairwise (fun a b => lookupD data a ≤ lookupD data b)
  keys_bound : ∀ i ∈ keysD data, i = start ∨ i ∈ allTargets ns

/-- Name-level symmetric edge relation of an `addEdge` call sequence. -/
def EdgeIn (es : List (String × String)) (a b : String) : Prop :=
  (a, b) ∈ es ∨ (b, a) ∈ es

/-- Name-level walk of `k` hops through the edges of the call sequence. -/
inductive NPath (es : List (String × String)) : String → String → Nat → Prop
  | refl (a : String) : NPath es a a 0
  | step {a b c : String} {k : Nat} :
      EdgeIn es a b → NPath es b c k → NPath es a c (k + 1)

/-- Name-level shortest distance. -/
def NIsDist (es : List (String × String)) (a b : String) (d : Nat) : Prop :=
  NPath es a b d ∧ ∀ k, NPath es a b k → d ≤ k

/-- Name-level diameter characterisation; it only depends on the edge list
through `EdgeIn`, hence is invariant under permutation of the calls. -/
def NDiamSpec (es : List (String × String)) (r : Nat) : Prop :=
  (∀ a b d, NIsDist es a b d → d ≤ r) ∧ (r = 0 ∨ ∃ a b, NIsDist es a b r)

/-- A name occurs somewhere in the edge list. -/
def OccursIn (es : List (String × String)) (a : String) : Prop :=
  ∃ p ∈ es, p.1 = a ∨ p.2 = a

/-- Well-formedness of a `Graph`, maintained by every `addEdge` call:
the symbol table assigns the ids `0,…,len-1` in order, node ids are exactly
the assigned ids (without duplicates), and adjacency only mentions existing
nodes. -/
structure GWF (g : Graph) : Prop where
  st_ids : g.symtab.map Prod.snd = List.range g.symtab.length
  names_nd : (g.symtab.map Prod.fst).Nodup
  ids_nd : (idsOf g.nodes).Nodup
  ids_lt : ∀ i ∈ idsOf g.nodes, i < g.symtab.length
  ids_cover : ∀ i, i < g.symtab.length → i ∈ idsOf g.nodes
  adj_closed : ∀ n ∈ g.nodes, ∀ v ∈ n.adj, v ∈ idsOf g.nodes

/-- The comparison graph for the self-loop claim: the same node map with the
self-adjacency of node `i` removed ("the same graph with the node present but
without the self-adjacency"). -/
def removeSelfAdj (ns : Nodes) (i : Nat) : Nodes :=
  updN ns i (fun n => { n with adj := n.adj.filter (fun j => j != i) })

/-- Nodes of the graph form a single connected component. -/
def ConnectedG (g : Graph) : Prop :=
  ∀ u v, u ∈ idsOf g.nodes → v ∈ idsOf g.nodes → Reach g.nodes u v

/-! ## Association-map lemmas -/

theorem keysD_append (d1 d2 : List (Nat × Nat)) :
    keysD (d1 ++ d2) = keysD d1 ++ keysD d2 := List.map_append _ _ _

theorem keysD_map_pair (l : List Nat) (c : Nat) :
    keysD (l.map (fun m => (m, c))) = l := by
  induction l with
  | nil => rfl
  | cons x xs ih =>
    simp only [keysD, List.map_cons] at ih ⊢
    rw [ih]

theorem lookupD_append_left {d1 : List (Nat × Nat)} {i : Nat}
    (h : i ∈ keysD d1) (d2 : List (Nat × Nat)) :
    lookupD (d1 ++ d2) i = lookupD d1 i := by
  induction d1 with
  | nil => simp [keysD] at h
  | cons p ps ih =>
    rw [List.cons_append]
    by_cases hp : p.1 = i
    · simp only [lookupD, if_pos hp]
    · have h' : i ∈ keysD ps := by
        simp only [keysD, List.map_cons, List.mem_cons] at h
        rcases h with h | h
        · exact absurd h.symm hp
        · exact h
      simp only [lookupD, if_neg hp]
      exact ih h'

theorem lookupD_append_right {d1 : List (Nat × Nat)} {i : Nat}
    (h : i ∉ keysD d1) (d2 : List (Nat × Nat)) :
    lookupD (d1 ++ d2) i = lookupD d2 i := by
  induction d1 with
  | nil => rw [List.nil_append]
  | cons p ps ih =>
    have hp : p.1 ≠ i := by
      intro e
      exact h (by simp [keysD, e])
    have h' : i ∉ keysD ps := by
      intro hm
      exact h (by simp [keysD] at hm ⊢; exact Or.inr hm)
    rw [List.cons_append]
    simp only [lookupD, if_neg hp]
    exact ih h'

theorem lookupName_append_left {s : SymTab} {a : String} {i : Nat}
    (h : lookupName s a = some i) (t : SymTab) :
    lookupName (s ++ t) a = some i := by
  induction s with
  | nil => simp [lookupName] at h
  | cons p ps ih =>
    rw [List.cons_append]
    by_cases hp : p.1 = a
    · simp only [lookupName, if_pos hp] at h ⊢
      exact h
    · simp only [lookupName, if_neg hp] at h ⊢
      exact ih h

theorem lookupName_append_none {s : SymTab} {a : String}
    (h : lookupName s a = none) (t : SymTab) :
    lookupName (s ++ t) a = lookupName t a := by
  induction s with
  | nil => rw [List.nil_append]
  | cons p ps ih =>
    rw [List.cons_append]
    by_cases hp : p.1 = a
    · simp only [lookupName, if_pos hp] at h
      exact Option.noConfusion h
    · simp only [lookupName, if_neg hp] at h ⊢
      exact ih h

theorem lookupName_eq_none {s : SymTab} {a : String} :
    lookupName s a = none ↔ a ∉ s.map Prod.fst := by
  induction s with
  | nil => simp [lookupName]
  | cons p ps ih =>
    by_cases hp : p.1 = a
    · simp [lookupName, hp]
    · simp only [lookupName, if_neg hp, List.map_cons, List.mem_cons, not_or, ih]
      constructor
      · intro h
        exact ⟨fun e => hp e.symm, h⟩
      · intro h
        exact h.2

theorem lookupName_mem {s : SymTab} {a : String} {i : Nat}
    (h : lookupName s a = some i) : (a, i) ∈ s := by
  induction s with
  | nil => simp [lookupName] at h
  | cons p ps ih =>
    by_cases hp : p.1 = a
    · simp only [lookupName, if_pos hp] at h
      injection h with h2
      have : (a, i) = p := Prod.ext_iff.mpr ⟨hp.symm, h2.symm⟩
      exact this ▸ List.mem_cons_self _ _
    · simp only [lookupName, if_neg hp] at h
      exact List.mem_cons_of_mem _ (ih h)

theorem lookupName_isSome_of_mem {s : SymTab} {a : String}
    (h : a ∈ s.map Prod.fst) : ∃ i, lookupName s a = some i := by
  cases hf : lookupName s a with
  | some i => exact ⟨i, rfl⟩
  | none => exact absurd h (lookupName_eq_none.mp hf)

/-! ## Node-map lemmas -/

theorem findNode_id {ns : Nodes} {i : Nat} {n : Node}
    (h : findNode ns i = some n) : n.id = i := by
  induction ns with
  | nil => simp [findNode] at h
  | cons m ms ih =>
    by_cases hm : m.id = i
    · simp only [findNode, if_pos hm] at h
      injection h with h
      rw [← h]
      exact hm
    · simp only [findNode, if_neg hm] at h
      exact ih h

theorem findNode_mem {ns : Nodes} {i : Nat} {n : Node}
    (h : findNode ns i = some n) : n ∈ ns := by
  induction ns with
  | nil => simp [findNode] at h
  | cons m ms ih =>
    by_cases hm : m.id = i
    · simp only [findNode, if_pos hm] at h
      injection h with h
      rw [← h]
      exact List.mem_cons_self _ _
    · simp only [findNode, if_neg hm] at h
      exact List.mem_cons_of_mem _ (ih h)

theorem findNode_eq_none {ns : Nodes} {i : Nat} :
    findNode ns i = none ↔ i ∉ idsOf ns := by
  induction ns with
  | nil => simp [findNode, idsOf]
  | cons m ms ih =>
    by_cases hm : m.id = i
    · simp [findNode, hm, idsOf]
    · simp only [findNode, if_neg hm, idsOf, List.map_cons, List.mem_cons, not_or, ih]
      constructor
      · intro h
        exact ⟨fun e => hm e.symm, h⟩
      · intro h
        exact h.2

theorem findNode_append_some {ns t : Nodes} {i : Nat} {n : Node}
    (h : findNode ns i = some n) : findNode (ns ++ t) i = some n := by
  induction ns with
  | nil => simp [findNode] at h
  | cons m ms ih =>
    rw [List.cons_append]
    by_cases hm : m.id = i
    · simp only [findNode, if_pos hm] at h ⊢
      exact h
    · simp only [findNode, if_neg hm] at h ⊢
      exact ih h

theorem findNode_append_none {ns t : Nodes} {i : Nat}
    (h : findNode ns i = none) : findNode (ns ++ t) i = findNode t i := by
  induction ns with
  | nil => rw [List.nil_append]
  | cons m ms ih =>
    rw [List.cons_append]
    by_cases hm : m.id = i
    · simp only [findNode, if_pos hm] at h
      exact Option.noConfusion h
    · simp only [findNode, if_neg hm] at h ⊢
      exact ih h

theorem findNode_isSome {ns : Nodes} {i : Nat} (h : i ∈ idsOf ns) :
    ∃ n, findNode ns i = some n := by
  cases hf : findNode ns i with
  | some n => exact ⟨n, rfl⟩
  | none => exact absurd h (findNode_eq_none.mp hf)

theorem getN_fst_id (ns : Nodes) (i : Nat) : (getN ns i).1.id = i := by
  cases hf : findNode ns i with
  | some n =>
    simp only [getN, hf]
    exact findNode_id hf
  | none => simp [getN, hf]

theorem getN_of_mem {ns : Nodes} {i : Nat} (h : i ∈ idsOf ns) :
    (getN ns i).2 = ns := by
  obtain ⟨n, hf⟩ := findNode_isSome h
  simp [getN, hf]

theorem getN_fst_adj (ns : Nodes) (i : Nat) : (getN ns i).1.adj = adjOf ns i := by
  cases hf : findNode ns i with
  | some n => simp [getN, adjOf, hf]
  | none => simp [getN, adjOf, hf]

theorem getN_find (ns : Nodes) (i : Nat) :
    findNode (getN ns i).2 i = some (getN ns i).1 := by
  cases hf : findNode ns i with
  | some n => simp [getN, hf]
  | none =>
    simp only [getN, hf]
    rw [findNode_append_none hf]
    simp [findNode]

theorem findNode_getN_some {ns : Nodes} {u : Nat} {n : Node} (i : Nat)
    (h : findNode ns u = some n) : findNode (getN ns i).2 u = some n := by
  cases hf : findNode ns i with
  | some m =>
    simp only [getN, hf]
    exact h
  | none =>
    simp only [getN, hf]
    exact findNode_append_some h

theorem adjOf_getN (ns : Nodes) (i u : Nat) :
    adjOf (getN ns i).2 u = adjOf ns u := by
  cases hf : findNode ns i with
  | some n => simp [getN, hf]
  | none =>
    simp only [getN, hf]
    cases hu : findNode ns u with
    | some m => rw [adjOf, adjOf, findNode_append_some hu, hu]
    | none =>
      rw [adjOf, adjOf, findNode_append_none hu, hu]
      by_cases hui : i = u
      · subst hui
        simp [findNode]
      · simp [findNode, hui]

theorem idsOf_append (ns t : Nodes) : idsOf (ns ++ t) = idsOf ns ++ idsOf t :=
  List.map_append _ _ _

theorem idsOf_getN_of_not_mem {ns : Nodes} {i : Nat} (h : i ∉ idsOf ns) :
    idsOf (getN ns i).2 = idsOf ns ++ [i] := by
  have hf : findNode ns i = none := findNode_eq_none.mpr h
  simp [getN, hf, idsOf]

theorem mem_idsOf_getN {ns : Nodes} {i j : Nat} :
    j ∈ idsOf (getN ns i).2 ↔ j ∈ idsOf ns ∨ j = i := by
  by_cases h : i ∈ idsOf ns
  · rw [getN_of_mem h]
    constructor
    · exact Or.inl
    · rintro (hj | rfl)
      · exact hj
      · exact h
  · rw [idsOf_getN_of_not_mem h]
    simp

/-! ## Update lemmas -/

theorem idsOf_updN (ns : Nodes) (i : Nat) (f : Node → Node)
    (hf : ∀ n, (f n).id = n.id) : idsOf (updN ns i f) = idsOf ns := by
  induction ns with
  | nil => rfl
  | cons m ms ih =>
    simp only [updN, idsOf, List.map_cons] at ih ⊢
    rw [ih]
    by_cases hm : m.id = i
    · rw [if_pos hm, hf m]
    · rw [if_neg hm]

theorem findNode_updN (ns : Nodes) (i : Nat) (f : Node → Node)
    (hf : ∀ n, (f n).id = n.id) (u : Nat) :
    findNode (updN ns i f) u =
      (findNode ns u).map (fun n => if n.id = i then f n else n) := by
  induction ns with
  | nil => rfl
  | cons m ms ih =>
    simp only [updN, List.map_cons, findNode]
    by_cases hm : m.id = u
    · have hgu : (if m.id = i then f m else m).id = u := by
        by_cases hmi : m.id = i
        · rw [if_pos hmi, hf m]
          exact hm
        · rw [if_neg hmi]
          exact hm
      rw [if_pos hgu, if_pos hm]
      rfl
    · have hgu : ¬((if m.id = i then f m else m).id = u) := by
        by_cases hmi : m.id = i
        · rw [if_pos hmi, hf m]
          exact hm
        · rw [if_neg hmi]
          exact hm
      rw [if_neg hgu, if_neg hm]
      exact ih

theorem adjOf_updN_ne {ns : Nodes} {i u : Nat} (f : Node → Node)
    (hf : ∀ n, (f n).id = n.id) (h : u ≠ i) :
    adjOf (updN ns i f) u = adjOf ns u := by
  rw [adjOf, adjOf, findNode_updN ns i f hf u]
  cases hfu : findNode ns u with
  | none => rfl
  | some n =>
    have hni : ¬(n.id = i) := by
      rw [findNode_id hfu]
      exact h
    simp [Option.map, hni]

theorem adjOf_updN_self {ns : Nodes} {i : Nat} {n : Node} (f : Node → Node)
    (hf : ∀ m, (f m).id = m.id) (h : findNode ns i = some n) :
    adjOf (updN ns i f) i = (f n).adj := by
  rw [adjOf, findNode_updN ns i f hf i, h]
  have hni : n.id = i := findNode_id h
  simp [Option.map, hni]

theorem updN_congr_id {ns : Nodes} {i : Nat} {f : Node → Node}
    (h : ∀ n ∈ ns, n.id = i → f n = n) : updN ns i f = ns := by
  induction ns with
  | nil => rfl
  | cons m ms ih =>
    simp only [updN, List.map_cons]
    have tail : updN ms i f = ms :=
      ih (fun n hn e => h n (List.mem_cons_of_mem _ hn) e)
    simp only [updN] at tail
    rw [tail]
    by_cases hm : m.id = i
    · rw [if_pos hm, h m (List.mem_cons_self _ _) hm]
    · rw [if_neg hm]

theorem Node.add_id (n : Node) (j : Nat) : (n.add j).id = n.id := by
  unfold Node.add
  split <;> rfl

theorem Node.mem_add {n : Node} {j v : Nat} :
    v ∈ (n.add j).adj ↔ v ∈ n.adj ∨ v = j := by
  unfold Node.add
  split
  · rename_i h
    constructor
    · exact Or.inl
    · rintro (hv | rfl)
      · exact hv
      · exact h
  · simp

theorem Node.add_of_mem {n : Node} {j : Nat} (h : j ∈ n.adj) : n.add j = n := by
  unfold Node.add
  rw [if_pos h]

/-! ## The effect of `addEdge` on adjacency -/

theorem mem_adj_upd2 {ms : Nodes} {a b u v : Nat} {na nb : Node}
    (hfa : findNode ms a = some na) (hfb : findNode ms b = some nb) :
    v ∈ adjOf (updN (updN ms a (fun n => n.add b)) b (fun n => n.add a)) u ↔
      v ∈ adjOf ms u ∨ (u = a ∧ v = b) ∨ (u = b ∧ v = a) := by
  have hidb : ∀ n : Node, (n.add b).id = n.id := fun n => Node.add_id n b
  have hida : ∀ n : Node, (n.add a).id = n.id := fun n => Node.add_id n a
  have haid : na.id = a := findNode_id hfa
  have hbid : nb.id = b := findNode_id hfb
  by_cases hub : u = b
  · subst hub
    have hfMb : findNode (updN ms a (fun n => n.add u)) u =
        some (if nb.id = a then nb.add u else nb) := by
      rw [findNode_updN ms a _ hidb u, hfb]
      rfl
    by_cases hba : u = a
    · subst hba
      rw [if_pos (hbid.trans rfl)] at hfMb
      rw [adjOf_updN_self _ hida hfMb, Node.mem_add, Node.mem_add]
      have hnb : nb.adj = adjOf ms u := by
        rw [adjOf, hfb]
      rw [hnb]
      constructor
      · rintro ((hv | rfl) | rfl)
        · exact Or.inl hv
        · exact Or.inr (Or.inl ⟨rfl, rfl⟩)
        · exact Or.inr (Or.inl ⟨rfl, rfl⟩)
      · rintro (hv | ⟨_, rfl⟩ | ⟨_, rfl⟩)
        · exact Or.inl (Or.inl hv)
        · exact Or.inl (Or.inr rfl)
        · exact Or.inl (Or.inr rfl)
    · rw [if_neg (by rw [hbid]; exact hba)] at hfMb
      rw [adjOf_updN_self _ hida hfMb, Node.mem_add]
      have hnb : nb.adj = adjOf ms u := by
        rw [adjOf, hfb]
      rw [hnb]
      constructor
      · rintro (hv | rfl)
        · exact Or.inl hv
        · exact Or.inr (Or.inr ⟨rfl, rfl⟩)
      · rintro (hv | ⟨hb2, _⟩ | ⟨_, rfl⟩)
        · exact Or.inl hv
        · exact absurd hb2 hba
        · exact Or.inr rfl
  · rw [adjOf_updN_ne _ hida hub]
    by_cases hua : u = a
    · subst hua
      rw [adjOf_updN_self _ hidb hfa, Node.mem_add]
      have hna : na.adj = adjOf ms u := by
        rw [adjOf, hfa]
      rw [hna]
      constructor
      · rintro (hv | rfl)
        · exact Or.inl hv
        · exact Or.inr (Or.inl ⟨rfl, rfl⟩)
      · rintro (hv | ⟨_, rfl⟩ | ⟨hab, rfl⟩)
        · exact Or.inl hv
        · exact Or.inr rfl
        · exact absurd hab hub
    · rw [adjOf_updN_ne _ hidb hua]
      constructor
      · exact Or.inl
      · rintro (hv | ⟨rfl, _⟩ | ⟨rfl, _⟩)
        · exact hv
        · exact absurd rfl hua
        · exact absurd rfl hub

theorem addEdgeN_eq (ns : Nodes) (a b : Nat) :
    addEdgeN ns a b =
      updN (updN (getN (getN ns a).2 b).2 a (fun n => n.add b)) b
        (fun n => n.add a) := rfl

theorem mem_adj_addEdgeN {ns : Nodes} {a b u v : Nat} :
    v ∈ adjOf (addEdgeN ns a b) u ↔
      v ∈ adjOf ns u ∨ (u = a ∧ v = b) ∨ (u = b ∧ v = a) := by
  rw [addEdgeN_eq]
  have hfa : findNode (getN (getN ns a).2 b).2 a = some (getN ns a).1 :=
    findNode_getN_some b (getN_find ns a)
  have hfb : findNode (getN (getN ns a).2 b).2 b = some (getN (getN ns a).2 b).1 :=
    getN_find (getN ns a).2 b
  rw [mem_adj_upd2 hfa hfb]
  have hadj2 : adjOf (getN (getN ns a).2 b).2 u = adjOf ns u := by
    rw [adjOf_getN, adjOf_getN]
  rw [hadj2]

theorem mem_idsOf_addEdgeN {ns : Nodes} {a b i : Nat} :
    i ∈ idsOf (addEdgeN ns a b) ↔ i ∈ idsOf ns ∨ i = a ∨ i = b := by
  rw [addEdgeN_eq]
  rw [idsOf_updN _ _ _ (fun n => Node.add_id n a),
      idsOf_updN _ _ _ (fun n => Node.add_id n b)]
  rw [mem_idsOf_getN, mem_idsOf_getN]
  rw [or_assoc]

theorem idsOf_addEdgeN_of_mem {ns : Nodes} {a b : Nat}
    (ha : a ∈ idsOf ns) (hb : b ∈ idsOf ns) :
    idsOf (addEdgeN ns a b) = idsOf ns := by
  rw [addEdgeN_eq]
  rw [idsOf_updN _ _ _ (fun n => Node.add_id n a),
      idsOf_updN _ _ _ (fun n => Node.add_id n b)]
  rw [getN_of_mem ha, getN_of_mem hb]

/-! ## Path and distance lemmas -/

theorem pathLen_snoc {ns : Nodes} {u v w k : Nat}
    (h : PathLen ns u v k) (hw : w ∈ adjOf ns v) : PathLen ns u w (k + 1) := by
  induction h with
  | refl x => exact PathLen.step hw (PathLen.refl w)
  | step hx _ ih => exact PathLen.step hx (ih hw)

theorem pathLen_decomp {ns : Nodes} {u w k : Nat} (h : PathLen ns u w k) :
    (k = 0 ∧ w = u) ∨ ∃ v k', k = k' + 1 ∧ PathLen ns u v k' ∧ w ∈ adjOf ns v := by
  induction h with
  | refl x => exact Or.inl ⟨rfl, rfl⟩
  | step hx htail ih =>
    rcases ih with ⟨hk0, rfl⟩ | ⟨v2, k2, rfl, hp, hw⟩
    · subst hk0
      exact Or.inr ⟨_, 0, rfl, PathLen.refl _, hx⟩
    · exact Or.inr ⟨v2, k2 + 1, rfl, PathLen.step hx hp, hw⟩

theorem pathLen_congr {ns1 ns2 : Nodes} (hadj : ∀ x, adjOf ns1 x = adjOf ns2 x)
    {u v k : Nat} (h : PathLen ns1 u v k) : PathLen ns2 u v k := by
  induction h with
  | refl x => exact PathLen.refl x
  | step hx _ ih => exact PathLen.step (hadj _ ▸ hx) (ih)

theorem pathLen_mono {ns1 ns2 : Nodes}
    (hadj : ∀ x y, y ∈ adjOf ns1 x → y ∈ adjOf ns2 x)
    {u v k : Nat} (h : PathLen ns1 u v k) : PathLen ns2 u v k := by
  induction h with
  | refl x => exact PathLen.refl x
  | step hx _ ih => exact PathLen.step (hadj _ _ hx) ih

theorem pathLen_start_mem {ns : Nodes} {u v k : Nat}
    (h : PathLen ns u v (k + 1)) : u ∈ idsOf ns := by
  cases h with
  | step hx _ =>
    rename_i x _
    by_contra hu
    rw [adjOf, findNode_eq_none.mpr hu] at hx
    exact List.not_mem_nil _ hx

theorem pathLen_end_mem {ns : Nodes} {u v k : Nat}
    (hcl : ∀ n ∈ ns, ∀ w ∈ n.adj, w ∈ idsOf ns)
    (h : PathLen ns u v (k + 1)) : v ∈ idsOf ns := by
  rcases pathLen_decomp h with ⟨h0, _⟩ | ⟨x, k', _, _, hv⟩
  · exact absurd h0 (Nat.succ_ne_zero k)
  · rw [adjOf] at hv
    cases hf : findNode ns x with
    | none => rw [hf] at hv; exact absurd hv (List.not_mem_nil _)
    | some n =>
      rw [hf] at hv
      exact hcl n (findNode_mem hf) v hv

theorem isDist_unique {ns : Nodes} {u v d1 d2 : Nat}
    (h1 : IsDist ns u v d1) (h2 : IsDist ns u v d2) : d1 = d2 :=
  Nat.le_antisymm (h1.2 _ h2.1) (h2.2 _ h1.1)

theorem isDist_self (ns : Nodes) (u : Nat) : IsDist ns u u 0 :=
  ⟨PathLen.refl u, fun k _ => Nat.zero_le k⟩

theorem reach_isDist {ns : Nodes} {u v : Nat} (h : Reach ns u v) :
    ∃ d, IsDist ns u v d := by
  classical
  obtain ⟨k, hk⟩ := h
  have hex : ∃ d, PathLen ns u v d := ⟨k, hk⟩
  refine ⟨Nat.find hex, Nat.find_spec hex, ?_⟩
  intro m hm
  exact Nat.find_le hm

theorem diamSpec_unique {ns : Nodes} {r1 r2 : Nat}
    (h1 : DiamSpec ns r1) (h2 : DiamSpec ns r2) : r1 = r2 := by
  have le12 : r1 ≤ r2 := by
    rcases h1.2 with h0 | ⟨u, v, hd⟩
    · omega
    · exact h2.1 _ _ _ hd
  have le21 : r2 ≤ r1 := by
    rcases h2.2 with h0 | ⟨u, v, hd⟩
    · omega
    · exact h1.1 _ _ _ hd
  omega

/-! ## The BFS inner fold -/

theorem lookupD_map_self {l : List Nat} {m : Nat} (h : m ∈ l) (c : Nat) :
    lookupD (l.map (fun x => (x, c))) m = c := by
  induction l with
  | nil => cases h
  | cons x xs ih =>
    by_cases hx : x = m
    · simp [lookupD, hx]
    · rcases List.mem_cons.mp h with rfl | h2
      · exact absurd rfl hx
      · simp only [List.map_cons, lookupD, if_neg hx]
        exact ih h2

theorem mem_allTargets {ns : Nodes} {u v : Nat} (h : v ∈ adjOf ns u) :
    v ∈ allTargets ns := by
  rw [adjOf] at h
  cases hf : findNode ns u with
  | none =>
    rw [hf] at h
    exact absurd h (List.not_mem_nil _)
  | some n =>
    rw [hf] at h
    rw [allTargets]
    exact List.mem_flatten.mpr ⟨n.adj, List.mem_map.mpr ⟨n, findNode_mem hf, rfl⟩, h⟩

theorem foldAdj_spec (n : Nat) (L : List Nat) :
    ∀ (q : List Nat) (data : List (Nat × Nat)), n ∈ keysD data →
    ∃ new : List Nat,
      L.foldl (bfsStepFold n) (q, data)
        = (q ++ new, data ++ new.map (fun m => (m, lookupD data n + 1)))
      ∧ new.Nodup
      ∧ (∀ m ∈ new, m ∈ L ∧ m ∉ keysD data)
      ∧ (∀ m ∈ L, m ∈ keysD data ∨ m ∈ new) := by
  induction L with
  | nil =>
    intro q data _
    exact ⟨[], by simp, List.nodup_nil, by simp, by simp⟩
  | cons m L' ih =>
    intro q data hn
    by_cases hm : m ∈ keysD data
    · obtain ⟨new, heq, hnd, hmem, hcov⟩ := ih q data hn
      refine ⟨new, ?_, hnd, ?_, ?_⟩
      · simp only [List.foldl_cons, bfsStepFold, if_pos hm]
        exact heq
      · exact fun x hx => ⟨List.mem_cons_of_mem _ (hmem x hx).1, (hmem x hx).2⟩
      · intro x hx
        rcases List.mem_cons.mp hx with rfl | hx2
        · exact Or.inl hm
        · exact hcov x hx2
    · have hn' : n ∈ keysD (data ++ [(m, lookupD data n + 1)]) := by
        rw [keysD_append]
        exact List.mem_append_left _ hn
      obtain ⟨new, heq, hnd, hmem, hcov⟩ :=
        ih (q ++ [m]) (data ++ [(m, lookupD data n + 1)]) hn'
      have hlk : lookupD (data ++ [(m, lookupD data n + 1)]) n = lookupD data n :=
        lookupD_append_left hn _
      have hmnew : m ∉ new := by
        intro hm2
        refine (hmem m hm2).2 ?_
        rw [keysD_append]
        exact List.mem_append_right _ (by simp [keysD])
      refine ⟨m :: new, ?_, List.nodup_cons.mpr ⟨hmnew, hnd⟩, ?_, ?_⟩
      · simp only [List.foldl_cons, bfsStepFold, if_neg hm]
        rw [heq, hlk, List.append_assoc, List.append_assoc]
        rfl
      · intro x hx
        rcases List.mem_cons.mp hx with rfl | hx2
        · exact ⟨List.mem_cons_self _ _, hm⟩
        · refine ⟨List.mem_cons_of_mem _ (hmem x hx2).1, ?_⟩
          intro hxd
          refine (hmem x hx2).2 ?_
          rw [keysD_append]
          exact List.mem_append_left _ hxd
      · intro x hx
        rcases List.mem_cons.mp hx with rfl | hx2
        · exact Or.inr (List.mem_cons_self _ _)
        · rcases hcov x hx2 with hk | hnew
          · rw [keysD_append] at hk
            rcases List.mem_append.mp hk with hk1 | hk2
            · exact Or.inl hk1
            · simp [keysD] at hk2
              exact Or.inr (hk2 ▸ List.mem_cons_self _ _)
          · exact Or.inr (List.mem_cons_of_mem _ hnew)

/-! ## BFS loop soundness -/

theorem bfsLoop_sound (ns : Nodes) (start : Nat) :
    ∀ (fuel : Nat) (q : List Nat) (data : List (Nat × Nat)) (last : Nat),
      BfsInv ns start q data last →
      2 * ((allTargets ns).length + 1) + q.length ≤ fuel + 2 * (keysD data).length →
      ∃ pr : Nat × List (Nat × Nat),
        bfsLoop ns fuel q data last = some pr ∧ BfsInv ns start [] pr.2 pr.1 := by
  intro fuel
  induction fuel with
  | zero =>
    intro q data last hinv hm
    cases q with
    | nil => exact ⟨(last, data), rfl, hinv⟩
    | cons n q' =>
      exfalso
      have hsub : keysD data ⊆ start :: allTargets ns := by
        intro i hi
        rcases hinv.keys_bound i hi with rfl | h
        · exact List.mem_cons_self _ _
        · exact List.mem_cons_of_mem _ h
      have hlen : (keysD data).length ≤ (allTargets ns).length + 1 := by
        have h := (hinv.keys_nd.subperm hsub).length_le
        simpa using h
      simp only [List.length_cons] at hm
      omega
  | succ fuel ih =>
    intro q data last hinv hm
    cases q with
    | nil => exact ⟨(last, data), rfl, hinv⟩
    | cons n q' =>
      have hnk : n ∈ keysD data := hinv.q_sub n (List.mem_cons_self _ _)
      obtain ⟨new, heq, hnd, hmem, hcov⟩ := foldAdj_spec n (adjOf ns n) q' data hnk
      have hstep : bfsLoop ns (fuel + 1) (n :: q') data last =
          bfsLoop ns fuel (q' ++ new)
            (data ++ new.map (fun m => (m, lookupD data n + 1))) n := by
        show bfsLoop ns fuel ((adjOf ns n).foldl (bfsStepFold n) (q', data)).1
            ((adjOf ns n).foldl (bfsStepFold n) (q', data)).2 n =
          bfsLoop ns fuel (q' ++ new)
            (data ++ new.map (fun m => (m, lookupD data n + 1))) n
        rw [heq]
      set dn := lookupD data n with hdn
      set data' := data ++ new.map (fun m => (m, dn + 1)) with hdata'
      have hkeys' : keysD data' = keysD data ++ new := by
        rw [hdata', keysD_append, keysD_map_pair]
      have hnewnotold : ∀ m ∈ new, m ∉ keysD data := fun m hmm => (hmem m hmm).2
      have hnewadj : ∀ m ∈ new, m ∈ adjOf ns n := fun m hmm => (hmem m hmm).1
      have hstab : ∀ i ∈ keysD data, lookupD data' i = lookupD data i :=
        fun i hi => lookupD_append_left hi _
      have hnewval : ∀ m ∈ new, lookupD data' m = dn + 1 := by
        intro m hmm
        rw [hdata', lookupD_append_right (hnewnotold m hmm), lookupD_map_self hmm]
      have hmem' : ∀ i, i ∈ keysD data' ↔ i ∈ keysD data ∨ i ∈ new := by
        intro i
        rw [hkeys', List.mem_append]
      have hq'sub : ∀ i ∈ q', i ∈ keysD data :=
        fun i hi => hinv.q_sub i (List.mem_cons_of_mem _ hi)
      have hq'new : ∀ i ∈ q', i ∉ new :=
        fun i hi hn2 => hnewnotold i hn2 (hq'sub i hi)
      have hdlast_le_dn : lookupD data last ≤ dn :=
        hinv.last_le_q n (List.mem_cons_self _ _)
      have hsorted_tail : ∀ i ∈ q', dn ≤ lookupD data i :=
        (List.pairwise_cons.mp hinv.q_sorted).1
      have hq'_le : ∀ i ∈ q', lookupD data i ≤ dn + 1 := by
        intro i hi
        have h1 := hinv.q_le i (List.mem_cons_of_mem _ hi)
        omega
      have hold_le : ∀ v ∈ keysD data, lookupD data v ≤ dn + 1 := by
        intro v hv
        by_cases hvq : v ∈ n :: q'
        · have h1 := hinv.q_le v hvq
          omega
        · have h1 := hinv.proc_le v hv hvq
          omega
      have hold_le_dn : ∀ v ∈ keysD data, v ∉ n :: q' → lookupD data v ≤ dn := by
        intro v hv hvq
        have h1 := hinv.proc_le v hv hvq
        omega
      have hstab_n : lookupD data' n = dn := by
        rw [hstab n hnk]
      have hinv' : BfsInv ns start (q' ++ new) data' n := by
        refine ⟨?_, ?_, ?_, ?_, ?_, ?_, ?_, ?_, ?_, ?_, ?_, ?_, ?_⟩
        · rw [hkeys']
          exact hinv.keys_nd.append hnd
            (fun a ha hb => hnewnotold a hb ha)
        · have hq'nd : q'.Nodup := (List.pairwise_cons.mp hinv.q_nd).2
          exact hq'nd.append hnd (fun a ha hb => hq'new a ha hb)
        · intro i hi
          rcases List.mem_append.mp hi with h1 | h2
          · exact (hmem' i).mpr (Or.inl (hq'sub i h1))
          · exact (hmem' i).mpr (Or.inr h2)
        · exact (hmem' start).mpr (Or.inl hinv.start_mem)
        · rw [hstab start hinv.start_mem]
          exact hinv.start_zero
        · intro i hi
          rcases (hmem' i).mp hi with h1 | h2
          · rw [hstab i h1]
            exact hinv.path_of i h1
          · rw [hnewval i h2]
            exact pathLen_snoc (hdn ▸ hinv.path_of n hnk) (hnewadj i h2)
        · exact (hmem' n).mpr (Or.inl hnk)
        · intro i hi hiq v hv
          rcases (hmem' i).mp hi with h1 | h2
          · by_cases hin : i = n
            · subst hin
              rcases hcov v hv with hv1 | hv2
              · refine ⟨(hmem' v).mpr (Or.inl hv1), ?_⟩
                rw [hstab v hv1, hstab_n]
                exact hold_le v hv1
              · refine ⟨(hmem' v).mpr (Or.inr hv2), ?_⟩
                rw [hnewval v hv2, hstab_n]
            · have hiq' : i ∉ n :: q' := by
                intro hmem2
                rcases List.mem_cons.mp hmem2 with rfl | h3
                · exact hin rfl
                · exact hiq (List.mem_append_left _ h3)
              obtain ⟨hv1, hv2⟩ := hinv.proc_closed i h1 hiq' v hv
              refine ⟨(hmem' v).mpr (Or.inl hv1), ?_⟩
              rw [hstab v hv1, hstab i h1]
              exact hv2
          · exact absurd (List.mem_append_right _ h2) hiq
        · intro i hi hiq
          rcases (hmem' i).mp hi with h1 | h2
          · rw [hstab i h1, hstab_n]
            by_cases hin : i = n
            · subst hin
              exact Nat.le_refl _
            · refine hold_le_dn i h1 ?_
              intro hmem2
              rcases List.mem_cons.mp hmem2 with rfl | h3
              · exact hin rfl
              · exact hiq (List.mem_append_left _ h3)
          · exact absurd (List.mem_append_right _ h2) hiq
        · intro i hi
          rw [hstab_n]
          rcases List.mem_append.mp hi with h1 | h2
          · rw [hstab i (hq'sub i h1)]
            exact hsorted_tail i h1
          · rw [hnewval i h2]
            omega
        · intro i hi
          rw [hstab_n]
          rcases List.mem_append.mp hi with h1 | h2
          · rw [hstab i (hq'sub i h1)]
            exact hq'_le i h1
          · rw [hnewval i h2]
        · rw [List.pairwise_append]
          refine ⟨?_, ?_, ?_⟩
          · have hp := (List.pairwise_cons.mp hinv.q_sorted).2
            refine hp.imp_of_mem ?_
            intro a b ha hb hab
            rw [hstab a (hq'sub a ha), hstab b (hq'sub b hb)]
            exact hab
          · refine List.pairwise_of_forall_mem_list ?_
            intro a ha b hb
            rw [hnewval a ha, hnewval b hb]
          · intro a ha b hb
            rw [hstab a (hq'sub a ha), hnewval b hb]
            exact hq'_le a ha
        · intro i hi
          rcases (hmem' i).mp hi with h1 | h2
          · exact hinv.keys_bound i h1
          · exact Or.inr (mem_allTargets (hnewadj i h2))
      have hmeas : 2 * ((allTargets ns).length + 1) + (q' ++ new).length ≤
          fuel + 2 * (keysD data').length := by
        rw [hkeys', List.length_append, List.length_append]
        simp only [List.length_cons] at hm
        omega
      obtain ⟨pr, hpr, hpost⟩ := ih (q' ++ new) data' n hinv' hmeas
      exact ⟨pr, hstep ▸ hpr, hpost⟩

/-! ## BFS postcondition: distances and eccentricity -/

theorem bfsPost_reach {ns : Nodes} {start : Nat} {data : List (Nat × Nat)}
    {last : Nat} (hp : BfsInv ns start [] data last) :
    ∀ k u, PathLen ns start u k → u ∈ keysD data ∧ lookupD data u ≤ k := by
  intro k
  induction k with
  | zero =>
    intro u hu
    cases hu
    exact ⟨hp.start_mem, Nat.le_of_eq hp.start_zero⟩
  | succ k ihk =>
    intro u hu
    rcases pathLen_decomp hu with ⟨h0, _⟩ | ⟨v, k', hk, hpv, hadj⟩
    · exact absurd h0 (Nat.succ_ne_zero k)
    · have hk' : k' = k := by omega
      subst hk'
      obtain ⟨hv, hlv⟩ := ihk v hpv
      obtain ⟨hu2, hlu⟩ := hp.proc_closed v hv (List.not_mem_nil v) u hadj
      exact ⟨hu2, by omega⟩

theorem bfsPost_isDist {ns : Nodes} {start : Nat} {data : List (Nat × Nat)}
    {last : Nat} (hp : BfsInv ns start [] data last) {u : Nat}
    (hu : u ∈ keysD data) : IsDist ns start u (lookupD data u) :=
  ⟨hp.path_of u hu, fun k hk => (bfsPost_reach hp k u hk).2⟩

theorem bfsPost_ecc {ns : Nodes} {start : Nat} {data : List (Nat × Nat)}
    {last : Nat} (hp : BfsInv ns start [] data last) :
    IsEcc ns start (lookupD data last) := by
  constructor
  · intro u d hd
    obtain ⟨hu, _⟩ := bfsPost_reach hp d u hd.1
    have h1 : d ≤ lookupD data u := hd.2 _ (hp.path_of u hu)
    have h2 : lookupD data u ≤ lookupD data last :=
      hp.proc_le u hu (List.not_mem_nil u)
    omega
  · exact ⟨last, bfsPost_isDist hp hp.last_mem⟩

theorem bfsInv_init (ns : Nodes) (start : Nat) :
    BfsInv ns start [start] [(start, 0)] start := by
  refine ⟨?_, ?_, ?_, ?_, ?_, ?_, ?_, ?_, ?_, ?_, ?_, ?_, ?_⟩
  · simp [keysD]
  · simp
  · intro i hi
    simpa [keysD] using hi
  · simp [keysD]
  · simp [lookupD]
  · intro i hi
    simp only [keysD, List.map_cons, List.map_nil, List.mem_singleton] at hi
    rw [hi]
    simpa [lookupD] using PathLen.refl start
  · simp [keysD]
  · intro i hi hiq
    simp only [keysD, List.map_cons, List.map_nil, List.mem_singleton] at hi
    subst hi
    exact absurd (List.mem_singleton.mpr rfl) hiq
  · intro i hi hiq
    simp only [keysD, List.map_cons, List.map_nil, List.mem_singleton] at hi
    subst hi
    exact absurd (List.mem_singleton.mpr rfl) hiq
  · intro i hi
    rw [List.mem_singleton.mp hi]
  · intro i hi
    rw [List.mem_singleton.mp hi]
    omega
  · simp
  · intro i hi
    simp only [keysD, List.map_cons, List.map_nil, List.mem_singleton] at hi
    exact Or.inl hi

theorem lspS_run (ns : Nodes) (start : Nat) :
    ∃ pr : Nat × List (Nat × Nat),
      bfsLoop (getN ns start).2 (2 * (allTargets (getN ns start).2).length + 2)
        [start] [(start, 0)] start = some pr ∧
      lspS ns start = (lookupD pr.2 pr.1, (getN ns start).2) ∧
      BfsInv (getN ns start).2 start [] pr.2 pr.1 := by
  have hid : (getN ns start).1.id = start := getN_fst_id ns start
  have hklen : (keysD [(start, 0)]).length = 1 := rfl
  obtain ⟨pr, hpr, hpost⟩ :=
    bfsLoop_sound (getN ns start).2 start
      (2 * (allTargets (getN ns start).2).length + 2) [start] [(start, 0)] start
      (bfsInv_init _ start) (by rw [hklen]; simp; omega)
  refine ⟨pr, hpr, ?_, hpost⟩
  simp only [lspS, hid, hpr]

theorem isDist_congr {ns1 ns2 : Nodes} (h : ∀ x, adjOf ns1 x = adjOf ns2 x)
    {u v d : Nat} (hd : IsDist ns1 u v d) : IsDist ns2 u v d :=
  ⟨pathLen_congr h hd.1,
   fun k hk => hd.2 k (pathLen_congr (fun x => (h x).symm) hk)⟩

theorem isEcc_congr {ns1 ns2 : Nodes} (h : ∀ x, adjOf ns1 x = adjOf ns2 x)
    {s r : Nat} (he : IsEcc ns1 s r) : IsEcc ns2 s r := by
  constructor
  · intro u d hd
    exact he.1 u d (isDist_congr (fun x => (h x).symm) hd)
  · obtain ⟨u, hu⟩ := he.2
    exact ⟨u, isDist_congr h hu⟩

theorem lspN_ecc (ns : Nodes) (start : Nat) : IsEcc ns start (lspN ns start) := by
  obtain ⟨pr, _, heq, hpost⟩ := lspS_run ns start
  have hval : lspN ns start = lookupD pr.2 pr.1 := by
    rw [lspN, heq]
  rw [hval]
  exact isEcc_congr (fun x => adjOf_getN ns start x) (bfsPost_ecc hpost)

/-! ## Diameter characterisation -/

theorem foldl_max_le_init (f : Node → Nat) :
    ∀ (l : List Node) (d : Nat), d ≤ l.foldl (fun acc n => max acc (f n)) d := by
  intro l
  induction l with
  | nil => intro d; exact Nat.le_refl d
  | cons m ms ih =>
    intro d
    exact Nat.le_trans (Nat.le_max_left _ _) (ih _)

theorem foldl_max_mem (f : Node → Nat) :
    ∀ (l : List Node) (d : Nat) (n : Node), n ∈ l →
      f n ≤ l.foldl (fun acc m => max acc (f m)) d := by
  intro l
  induction l with
  | nil =>
    intro d n hn
    cases hn
  | cons m ms ih =>
    intro d n hn
    rcases List.mem_cons.mp hn with rfl | h2
    · exact Nat.le_trans (Nat.le_max_right _ _) (foldl_max_le_init f ms _)
    · exact ih _ n h2

theorem foldl_max_attain (f : Node → Nat) :
    ∀ (l : List Node) (d : Nat),
      l.foldl (fun acc n => max acc (f n)) d = d ∨
      ∃ n ∈ l, l.foldl (fun acc n => max acc (f n)) d = f n := by
  intro l
  induction l with
  | nil =>
    intro d
    exact Or.inl rfl
  | cons m ms ih =>
    intro d
    rcases ih (max d (f m)) with h | ⟨n, hn, hv⟩
    · by_cases hdm : f m ≤ d
      · left
        rw [List.foldl_cons, h, Nat.max_eq_left hdm]
      · right
        refine ⟨m, List.mem_cons_self _ _, ?_⟩
        rw [List.foldl_cons, h, Nat.max_eq_right (Nat.le_of_not_le hdm)]
    · right
      refine ⟨n, List.mem_cons_of_mem _ hn, ?_⟩
      rw [List.foldl_cons]
      exact hv

theorem lspN_le_diameterN {ns : Nodes} {u : Nat} (hu : u ∈ idsOf ns) :
    lspN ns u ≤ diameterN ns := by
  obtain ⟨n0, hf⟩ := findNode_isSome hu
  have hid : n0.id = u := findNode_id hf
  have h := foldl_max_mem (fun n => lspN ns n.id) ns 0 n0 (findNode_mem hf)
  simp only at h
  rw [hid] at h
  exact h

theorem diameterN_spec (ns : Nodes) : DiamSpec ns (diameterN ns) := by
  constructor
  · intro u v d hd
    cases d with
    | zero => exact Nat.zero_le _
    | succ k =>
      have hu : u ∈ idsOf ns := pathLen_start_mem hd.1
      have h1 : k + 1 ≤ lspN ns u := (lspN_ecc ns u).1 v (k + 1) hd
      have h2 : lspN ns u ≤ diameterN ns := lspN_le_diameterN hu
      omega
  · rcases foldl_max_attain (fun n => lspN ns n.id) ns 0 with h | ⟨n, hn, hv⟩
    · exact Or.inl h
    · right
      obtain ⟨u, hu⟩ := (lspN_ecc ns n.id).2
      refine ⟨n.id, u, ?_⟩
      have hdv : diameterN ns = lspN ns n.id := hv
      rw [hdv]
      exact hu

/-! ## Symbol-table lemmas -/

theorem getID_of_some {s : SymTab} {a : String} {i : Nat}
    (h : lookupName s a = some i) : getID s a = (i, s) := by
  simp [getID, h]

theorem getID_of_none {s : SymTab} {a : String}
    (h : lookupName s a = none) : getID s a = (s.length, s ++ [(a, s.length)]) := by
  simp [getID, h]

theorem getID_lookup_self (s : SymTab) (a : String) :
    lookupName (getID s a).2 a = some (getID s a).1 := by
  cases h : lookupName s a with
  | some i => simp [getID, h]
  | none =>
    simp only [getID, h]
    rw [lookupName_append_none h]
    simp [lookupName]

theorem getID_preserve {s : SymTab} {x : String} {i : Nat}
    (h : lookupName s x = some i) (a : String) :
    lookupName (getID s a).2 x = some i := by
  cases ha : lookupName s a with
  | some j => simpa [getID, ha] using h
  | none =>
    simp only [getID, ha]
    exact lookupName_append_left h _

theorem getID_length_le (s : SymTab) (a : String) :
    s.length ≤ ((getID s a).2).length := by
  cases ha : lookupName s a with
  | some j => simp [getID, ha]
  | none => simp [getID, ha]

theorem getID_vals {s : SymTab} (hv : s.map Prod.snd = List.range s.length)
    (a : String) :
    ((getID s a).2).map Prod.snd = List.range ((getID s a).2).length := by
  cases ha : lookupName s a with
  | some j => simpa [getID, ha] using hv
  | none =>
    simp only [getID, ha, List.map_append, List.length_append]
    rw [hv]
    simp [List.range_succ]

theorem getID_names_nd {s : SymTab} (hn : (s.map Prod.fst).Nodup) (a : String) :
    (((getID s a).2).map Prod.fst).Nodup := by
  cases ha : lookupName s a with
  | some j => simpa [getID, ha] using hn
  | none =>
    simp only [getID, ha, List.map_append]
    refine hn.append (by simp) ?_
    intro x hx hx2
    simp only [List.map_cons, List.map_nil, List.mem_singleton] at hx2
    subst hx2
    exact lookupName_eq_none.mp ha hx

theorem getID_fst_lt {s : SymTab} (hv : s.map Prod.snd = List.range s.length)
    (a : String) : (getID s a).1 < ((getID s a).2).length := by
  cases ha : lookupName s a with
  | some j =>
    simp only [getID, ha]
    have hj : j ∈ s.map Prod.snd := List.mem_map.mpr ⟨(a, j), lookupName_mem ha, rfl⟩
    rw [hv] at hj
    exact List.mem_range.mp hj
  | none => simp [getID, ha]

theorem getID_mem_names (s : SymTab) (a : String) :
    a ∈ ((getID s a).2).map Prod.fst :=
  List.mem_map.mpr ⟨(a, (getID s a).1), lookupName_mem (getID_lookup_self s a), rfl⟩

theorem mem_names_getID {s : SymTab} {a x : String} :
    x ∈ ((getID s a).2).map Prod.fst ↔ x ∈ s.map Prod.fst ∨ x = a := by
  cases ha : lookupName s a with
  | some j =>
    simp only [getID, ha]
    constructor
    · exact Or.inl
    · rintro (hx | rfl)
      · exact hx
      · exact List.mem_map.mpr ⟨(x, j), lookupName_mem ha, rfl⟩
  | none =>
    simp only [getID, ha, List.map_append]
    rw [List.mem_append]
    simp

theorem snd_inj {s : SymTab} (h : (s.map Prod.snd).Nodup) {a b : String} {i : Nat}
    (ha : (a, i) ∈ s) (hb : (b, i) ∈ s) : a = b := by
  induction s with
  | nil => cases ha
  | cons p ps ih =>
    simp only [List.map_cons, List.nodup_cons] at h
    rcases List.mem_cons.mp ha with ha1 | ha2
    · rcases List.mem_cons.mp hb with hb1 | hb2
      · rw [← ha1] at hb1
        exact (congrArg Prod.fst hb1).symm
      · exfalso
        refine h.1 ?_
        rw [← ha1]
        exact List.mem_map.mpr ⟨(b, i), hb2, rfl⟩
    · rcases List.mem_cons.mp hb with hb1 | hb2
      · exfalso
        refine h.1 ?_
        rw [← hb1]
        exact List.mem_map.mpr ⟨(a, i), ha2, rfl⟩
      · exact ih h.2 ha2 hb2

theorem lookupName_inj {s : SymTab} (h : (s.map Prod.snd).Nodup)
    {a b : String} {i : Nat} (ha : lookupName s a = some i)
    (hb : lookupName s b = some i) : a = b :=
  snd_inj h (lookupName_mem ha) (lookupName_mem hb)

/-! ## Well-formedness of built graphs -/

theorem idsOf_getN_nodup {ns : Nodes} {i : Nat} (h : (idsOf ns).Nodup) :
    (idsOf (getN ns i).2).Nodup := by
  by_cases hm : i ∈ idsOf ns
  · rw [getN_of_mem hm]
    exact h
  · rw [idsOf_getN_of_not_mem hm]
    refine h.append (by simp) ?_
    intro x hx hx2
    rw [List.mem_singleton.mp hx2] at hx
    exact hm hx

theorem findNode_of_mem {ns : Nodes} (hnd : (idsOf ns).Nodup) {n : Node}
    (hn : n ∈ ns) : findNode ns n.id = some n := by
  induction ns with
  | nil => cases hn
  | cons m ms ih =>
    simp only [idsOf, List.map_cons, List.nodup_cons] at hnd
    rcases List.mem_cons.mp hn with rfl | h2
    · simp [findNode]
    · have hne : ¬(m.id = n.id) := by
        intro e
        refine hnd.1 ?_
        rw [e]
        exact List.mem_map.mpr ⟨n, h2, rfl⟩
      simp only [findNode, if_neg hne]
      exact ih hnd.2 h2

theorem adjClosed_of_mem_closed {ns : Nodes}
    (h : ∀ n ∈ ns, ∀ v ∈ n.adj, v ∈ idsOf ns) {u v : Nat}
    (hv : v ∈ adjOf ns u) : v ∈ idsOf ns := by
  rw [adjOf] at hv
  cases hf : findNode ns u with
  | none =>
    rw [hf] at hv
    exact absurd hv (List.not_mem_nil _)
  | some n =>
    rw [hf] at hv
    exact h n (findNode_mem hf) v hv

theorem mem_closed_of_adjClosed {ns : Nodes} (hnd : (idsOf ns).Nodup)
    (h : ∀ u v, v ∈ adjOf ns u → v ∈ idsOf ns) :
    ∀ n ∈ ns, ∀ v ∈ n.adj, v ∈ idsOf ns := by
  intro n hn v hv
  refine h n.id v ?_
  rw [adjOf, findNode_of_mem hnd hn]
  exact hv

theorem gwf_new : GWF Graph.new := by
  refine ⟨rfl, List.nodup_nil, List.nodup_nil, ?_, ?_, ?_⟩
  · intro i hi
    cases hi
  · intro i hi
    simp [Graph.new] at hi
  · intro n hn
    cases hn

theorem gwf_addEdge {g : Graph} (h : GWF g) (a b : String) :
    GWF (g.addEdge a b) := by
  have hs1v := getID_vals h.st_ids a
  have hs2v := getID_vals hs1v b
  have hs1n := getID_names_nd h.names_nd a
  have hs2n := getID_names_nd hs1n b
  have hlen1 := getID_length_le g.symtab a
  have hlen2 := getID_length_le (getID g.symtab a).2 b
  have hia : (getID g.symtab a).1 < ((getID g.symtab a).2).length :=
    getID_fst_lt h.st_ids a
  have hib : (getID (getID g.symtab a).2 b).1 <
      ((getID (getID g.symtab a).2 b).2).length := getID_fst_lt hs1v b
  have hnodes : (g.addEdge a b).nodes =
      addEdgeN g.nodes (getID g.symtab a).1 (getID (getID g.symtab a).2 b).1 := rfl
  have hsymtab : (g.addEdge a b).symtab = (getID (getID g.symtab a).2 b).2 := rfl
  have hids_nd : (idsOf (g.addEdge a b).nodes).Nodup := by
    rw [hnodes, addEdgeN_eq,
        idsOf_updN _ _ _ (fun n => Node.add_id n _),
        idsOf_updN _ _ _ (fun n => Node.add_id n _)]
    exact idsOf_getN_nodup (idsOf_getN_nodup h.ids_nd)
  have hmemids : ∀ i, i ∈ idsOf (g.addEdge a b).nodes ↔
      i ∈ idsOf g.nodes ∨ i = (getID g.symtab a).1 ∨
        i = (getID (getID g.symtab a).2 b).1 := by
    intro i
    rw [hnodes]
    exact mem_idsOf_addEdgeN
  refine ⟨hs2v, hs2n, hids_nd, ?_, ?_, ?_⟩
  · intro i hi
    rcases (hmemids i).mp hi with h1 | h2 | h3
    · have := h.ids_lt i h1
      rw [hsymtab]
      omega
    · rw [hsymtab]
      omega
    · rw [hsymtab]
      omega
  · intro i hi
    rw [hsymtab] at hi
    refine (hmemids i).mpr ?_
    cases ha : lookupName g.symtab a with
    | some ja =>
      rw [getID_of_some ha] at hi hia ⊢
      cases hb : lookupName g.symtab b with
      | some jb =>
        rw [getID_of_some hb] at hi ⊢
        exact Or.inl (h.ids_cover i hi)
      | none =>
        rw [getID_of_none hb] at hi ⊢
        simp only [List.length_append, List.length_cons, List.length_nil] at hi
        by_cases hilt : i < g.symtab.length
        · exact Or.inl (h.ids_cover i hilt)
        · have : i = g.symtab.length := by omega
          exact Or.inr (Or.inr this)
    | none =>
      rw [getID_of_none ha] at hi hia ⊢
      cases hb : lookupName (g.symtab ++ [(a, g.symtab.length)]) b with
      | some jb =>
        rw [getID_of_some hb] at hi ⊢
        simp only [List.length_append, List.length_cons, List.length_nil] at hi
        by_cases hilt : i < g.symtab.length
        · exact Or.inl (h.ids_cover i hilt)
        · have : i = g.symtab.length := by omega
          exact Or.inr (Or.inl this)
      | none =>
        rw [getID_of_none hb] at hi ⊢
        simp only [List.length_append, List.length_cons, List.length_nil] at hi
        by_cases hilt : i < g.symtab.length
        · exact Or.inl (h.ids_cover i hilt)
        · by_cases hieq : i = g.symtab.length
          · exact Or.inr (Or.inl hieq)
          · have : i = (g.symtab ++ [(a, g.symtab.length)]).length := by
              simp only [List.length_append, List.length_cons, List.length_nil]
              omega
            exact Or.inr (Or.inr this)
  · refine mem_closed_of_adjClosed hids_nd ?_
    intro u v hv
    rw [hnodes] at hv
    rcases mem_adj_addEdgeN.mp hv with h1 | ⟨rfl, rfl⟩ | ⟨rfl, rfl⟩
    · have h2 := adjClosed_of_mem_closed h.adj_closed h1
      exact (hmemids v).mpr (Or.inl h2)
    · exact (hmemids _).mpr (Or.inr (Or.inr rfl))
    · exact (hmemids _).mpr (Or.inr (Or.inl rfl))

theorem buildGraph_wf_aux (es : List (String × String)) :
    ∀ g : Graph, GWF g →
      GWF (es.foldl (fun g e => g.addEdge e.1 e.2) g) := by
  induction es with
  | nil =>
    intro g hg
    exact hg
  | cons e es' ih =>
    intro g hg
    exact ih _ (gwf_addEdge hg e.1 e.2)

theorem buildGraph_wf (es : List (String × String)) : GWF (buildGraph es) :=
  buildGraph_wf_aux es Graph.new gwf_new

/-! ## Idempotence of edge insertion -/

theorem idsOf_addEdgeN_nodup {ns : Nodes} (h : (idsOf ns).Nodup) (a b : Nat) :
    (idsOf (addEdgeN ns a b)).Nodup := by
  rw [addEdgeN_eq,
      idsOf_updN _ _ _ (fun n => Node.add_id n a),
      idsOf_updN _ _ _ (fun n => Node.add_id n b)]
  exact idsOf_getN_nodup (idsOf_getN_nodup h)

theorem addEdgeN_idem {ns : Nodes} (hnd : (idsOf ns).Nodup) (a b : Nat) :
    addEdgeN (addEdgeN ns a b) a b = addEdgeN ns a b := by
  have hnd' : (idsOf (addEdgeN ns a b)).Nodup := idsOf_addEdgeN_nodup hnd a b
  have hma : a ∈ idsOf (addEdgeN ns a b) :=
    mem_idsOf_addEdgeN.mpr (Or.inr (Or.inl rfl))
  have hmb : b ∈ idsOf (addEdgeN ns a b) :=
    mem_idsOf_addEdgeN.mpr (Or.inr (Or.inr rfl))
  have hab : b ∈ adjOf (addEdgeN ns a b) a :=
    mem_adj_addEdgeN.mpr (Or.inr (Or.inl ⟨rfl, rfl⟩))
  have hba : a ∈ adjOf (addEdgeN ns a b) b :=
    mem_adj_addEdgeN.mpr (Or.inr (Or.inr ⟨rfl, rfl⟩))
  have h1 : updN (addEdgeN ns a b) a (fun n => n.add b) = addEdgeN ns a b := by
    refine updN_congr_id ?_
    intro n hn hid
    have hf : findNode (addEdgeN ns a b) a = some n := by
      have h2 := findNode_of_mem hnd' hn
      rw [hid] at h2
      exact h2
    refine Node.add_of_mem ?_
    rw [adjOf, hf] at hab
    exact hab
  have h2 : updN (addEdgeN ns a b) b (fun n => n.add a) = addEdgeN ns a b := by
    refine updN_congr_id ?_
    intro n hn hid
    have hf : findNode (addEdgeN ns a b) b = some n := by
      have h3 := findNode_of_mem hnd' hn
      rw [hid] at h3
      exact h3
    refine Node.add_of_mem ?_
    rw [adjOf, hf] at hba
    exact hba
  conv_lhs => rw [addEdgeN_eq, getN_of_mem hma, getN_of_mem hmb, h1, h2]

theorem Graph.addEdge_def (g : Graph) (a b : String) :
    g.addEdge a b = ⟨(getID (getID g.symtab a).2 b).2,
      addEdgeN g.nodes (getID g.symtab a).1 (getID (getID g.symtab a).2 b).1⟩ := rfl

theorem addEdge_idem {g : Graph} (hnd : (idsOf g.nodes).Nodup) (a b : String) :
    (g.addEdge a b).addEdge a b = g.addEdge a b := by
  have hga : lookupName (getID (getID g.symtab a).2 b).2 a
      = some (getID g.symtab a).1 :=
    getID_preserve (getID_lookup_self g.symtab a) b
  have hgb : lookupName (getID (getID g.symtab a).2 b).2 b
      = some (getID (getID g.symtab a).2 b).1 :=
    getID_lookup_self (getID g.symtab a).2 b
  rw [Graph.addEdge_def (g.addEdge a b) a b]
  rw [Graph.addEdge_def g a b]
  simp only [getID_of_some hga, getID_of_some hgb]
  rw [addEdgeN_idem hnd]

/-! ## Symmetry of adjacency -/

theorem addEdgeN_sym {ns : Nodes}
    (h : ∀ u v, v ∈ adjOf ns u → u ∈ adjOf ns v) (a b : Nat) :
    ∀ u v, v ∈ adjOf (addEdgeN ns a b) u → u ∈ adjOf (addEdgeN ns a b) v := by
  intro u v hv
  rcases mem_adj_addEdgeN.mp hv with h1 | ⟨rfl, rfl⟩ | ⟨rfl, rfl⟩
  · exact mem_adj_addEdgeN.mpr (Or.inl (h u v h1))
  · exact mem_adj_addEdgeN.mpr (Or.inr (Or.inr ⟨rfl, rfl⟩))
  · exact mem_adj_addEdgeN.mpr (Or.inr (Or.inl ⟨rfl, rfl⟩))

theorem buildGraph_sym_aux (es : List (String × String)) :
    ∀ g : Graph, (∀ u v, v ∈ adjOf g.nodes u → u ∈ adjOf g.nodes v) →
      ∀ u v, v ∈ adjOf (es.foldl (fun g e => g.addEdge e.1 e.2) g).nodes u →
        u ∈ adjOf (es.foldl (fun g e => g.addEdge e.1 e.2) g).nodes v := by
  induction es with
  | nil =>
    intro g hg
    exact hg
  | cons e es' ih =>
    intro g hg
    exact ih _ (addEdgeN_sym hg _ _)

theorem buildGraph_sym (es : List (String × String)) :
    ∀ u v, v ∈ adjOf (buildGraph es).nodes u →
      u ∈ adjOf (buildGraph es).nodes v := by
  refine buildGraph_sym_aux es Graph.new ?_
  intro u v hv
  simp [adjOf, findNode, Graph.new] at hv

/-! ## The diameter query does not change the node map -/

theorem lspS_snd (ns : Nodes) (start : Nat) :
    (lspS ns start).2 = (getN ns start).2 := by
  obtain ⟨pr, _, heq, _⟩ := lspS_run ns start
  rw [heq]

theorem lspS_snd_of_mem {ns : Nodes} {start : Nat} (h : start ∈ idsOf ns) :
    (lspS ns start).2 = ns := by
  rw [lspS_snd, getN_of_mem h]

theorem diameterS_eq (ns : Nodes) : diameterS ns = (diameterN ns, ns) := by
  rw [diameterS, diameterN]
  have aux : ∀ (ms : List Node) (d : Nat), (∀ n ∈ ms, n.id ∈ idsOf ns) →
      ms.foldl (fun acc n =>
        let r := lspS acc.2 n.id
        (max acc.1 r.1, r.2)) (d, ns)
      = (ms.foldl (fun d n => max d (lspN ns n.id)) d, ns) := by
    intro ms
    induction ms with
    | nil =>
      intro d _
      rfl
    | cons m ms' ih =>
      intro d hmem
      simp only [List.foldl_cons]
      have h2 : (lspS ns m.id).2 = ns :=
        lspS_snd_of_mem (hmem m (List.mem_cons_self _ _))
      have h1 : (lspS ns m.id).1 = lspN ns m.id := rfl
      rw [h2, h1]
      exact ih _ (fun n hn => hmem n (List.mem_cons_of_mem _ hn))
  exact aux ns 0 (fun n hn => List.mem_map.mpr ⟨n, hn, rfl⟩)

theorem diameterStateful_eq (g : Graph) : g.diameterStateful = (g.diameter, g) := by
  rw [Graph.diameterStateful, Graph.diameter, diameterS_eq]

/-! ## Distances after adding an edge between existing nodes -/

theorem diamSpec_transfer {ns1 ns2 : Nodes}
    (h : ∀ u v d, IsDist ns1 u v d ↔ IsDist ns2 u v d) {r : Nat}
    (hs : DiamSpec ns1 r) : DiamSpec ns2 r := by
  constructor
  · intro u v d hd
    exact hs.1 u v d ((h u v d).mpr hd)
  · rcases hs.2 with h0 | ⟨u, v, hd⟩
    · exact Or.inl h0
    · exact Or.inr ⟨u, v, (h u v r).mp hd⟩

theorem diameterN_eq_of_isDist {ns1 ns2 : Nodes}
    (h : ∀ u v d, IsDist ns1 u v d ↔ IsDist ns2 u v d) :
    diameterN ns1 = diameterN ns2 :=
  diamSpec_unique (diamSpec_transfer h (diameterN_spec ns1)) (diameterN_spec ns2)

/-! ## Self-loop removal does not change distances -/

theorem mem_adj_removeSelfAdj {ns : Nodes} {i u v : Nat} :
    v ∈ adjOf (removeSelfAdj ns i) u ↔ v ∈ adjOf ns u ∧ ¬(u = i ∧ v = i) := by
  have hid : ∀ n : Node,
      ({ n with adj := n.adj.filter (fun j => j != i) } : Node).id = n.id :=
    fun n => rfl
  by_cases hui : u = i
  · subst hui
    cases hf : findNode ns u with
    | none =>
      rw [removeSelfAdj, adjOf, adjOf, findNode_updN _ _ _ hid, hf]
      simp
    | some n =>
      rw [removeSelfAdj, adjOf_updN_self _ hid hf]
      have hrhs : adjOf ns u = n.adj := by
        rw [adjOf, hf]
      rw [hrhs]
      show v ∈ n.adj.filter (fun j => j != u) ↔ v ∈ n.adj ∧ ¬(u = u ∧ v = u)
      rw [List.mem_filter, bne_iff_ne]
      constructor
      · rintro ⟨h1, h2⟩
        exact ⟨h1, fun hc => h2 hc.2⟩
      · rintro ⟨h1, h2⟩
        exact ⟨h1, fun hc => h2 ⟨rfl, hc⟩⟩
  · rw [removeSelfAdj, adjOf_updN_ne _ hid hui]
    constructor
    · intro hv
      exact ⟨hv, fun hc => hui hc.1⟩
    · intro hv
      exact hv.1

theorem pathLen_remove_self {ns : Nodes} {i : Nat} {u v k : Nat}
    (h : PathLen ns u v k) :
    ∃ k' ≤ k, PathLen (removeSelfAdj ns i) u v k' := by
  induction h with
  | refl x => exact ⟨0, Nat.le_refl 0, PathLen.refl x⟩
  | step hx htail ih =>
    rename_i u1 v1 w1 k0
    obtain ⟨k', hk', hp⟩ := ih
    by_cases hxy : u1 = i ∧ v1 = i
    · obtain ⟨h1, h2⟩ := hxy
      subst h1
      subst h2
      exact ⟨k', Nat.le_succ_of_le hk', hp⟩
    · have hedge : v1 ∈ adjOf (removeSelfAdj ns i) u1 :=
        mem_adj_removeSelfAdj.mpr ⟨hx, hxy⟩
      exact ⟨k' + 1, Nat.succ_le_succ hk', PathLen.step hedge hp⟩

theorem isDist_remove_self (ns : Nodes) (i : Nat) (u v d : Nat) :
    IsDist ns u v d ↔ IsDist (removeSelfAdj ns i) u v d := by
  have hmono : ∀ x y, y ∈ adjOf (removeSelfAdj ns i) x → y ∈ adjOf ns x :=
    fun x y hy => (mem_adj_removeSelfAdj.mp hy).1
  constructor
  · intro hd
    obtain ⟨k', hk', hp⟩ := pathLen_remove_self (i := i) hd.1
    have hk'2 : d ≤ k' := hd.2 k' (pathLen_mono hmono hp)
    have hkd : k' = d := by omega
    subst hkd
    refine ⟨hp, ?_⟩
    intro k hk
    exact hd.2 k (pathLen_mono hmono hk)
  · intro hd
    refine ⟨pathLen_mono hmono hd.1, ?_⟩
    intro k hk
    obtain ⟨k', hk', hp⟩ := pathLen_remove_self (i := i) hk
    have := hd.2 k' hp
    omega

theorem diameterN_remove_self (ns : Nodes) (i : Nat) :
    diameterN ns = diameterN (removeSelfAdj ns i) :=
  diameterN_eq_of_isDist (fun u v d => isDist_remove_self ns i u v d)

/-! ## Name-level characterisation of built graphs -/

theorem buildGraph_append (es : List (String × String)) (e : String × String) :
    buildGraph (es ++ [e]) = (buildGraph es).addEdge e.1 e.2 := by
  rw [buildGraph, buildGraph, List.foldl_append]
  rfl

theorem edgeIn_occurs {es : List (String × String)} {a b : String}
    (h : EdgeIn es a b) : OccursIn es a ∧ OccursIn es b := by
  rcases h with h | h
  · exact ⟨⟨(a, b), h, Or.inl rfl⟩, ⟨(a, b), h, Or.inr rfl⟩⟩
  · exact ⟨⟨(b, a), h, Or.inr rfl⟩, ⟨(b, a), h, Or.inl rfl⟩⟩

theorem occursIn_append {es : List (String × String)} {e : String × String}
    {x : String} :
    OccursIn (es ++ [e]) x ↔ OccursIn es x ∨ x = e.1 ∨ x = e.2 := by
  constructor
  · rintro ⟨p, hp, hx⟩
    rcases List.mem_append.mp hp with h1 | h2
    · exact Or.inl ⟨p, h1, hx⟩
    · rw [List.mem_singleton.mp h2] at hx
      rcases hx with h3 | h3
      · exact Or.inr (Or.inl h3.symm)
      · exact Or.inr (Or.inr h3.symm)
  · rintro (⟨p, hp, hx⟩ | rfl | rfl)
    · exact ⟨p, List.mem_append_left _ hp, hx⟩
    · exact ⟨e, List.mem_append_right _ (List.mem_singleton.mpr rfl), Or.inl rfl⟩
    · exact ⟨e, List.mem_append_right _ (List.mem_singleton.mpr rfl), Or.inr rfl⟩

theorem mem_names_build (es : List (String × String)) (x : String) :
    x ∈ ((buildGraph es).symtab).map Prod.fst ↔ OccursIn es x := by
  induction es using List.reverseRecOn with
  | nil =>
    constructor
    · intro h
      cases h
    · rintro ⟨p, hp, _⟩
      cases hp
  | append_singleton es e ih =>
    rw [buildGraph_append]
    have hsym : ((buildGraph es).addEdge e.1 e.2).symtab =
        (getID (getID (buildGraph es).symtab e.1).2 e.2).2 := rfl
    rw [hsym, mem_names_getID, mem_names_getID, occursIn_append, ih, or_assoc]

theorem adj_build (es : List (String × String)) (u v : Nat) :
    v ∈ adjOf (buildGraph es).nodes u ↔
      ∃ a b, EdgeIn es a b ∧ lookupName (buildGraph es).symtab a = some u ∧
        lookupName (buildGraph es).symtab b = some v := by
  induction es using List.reverseRecOn with
  | nil =>
    constructor
    · intro h
      simp [adjOf, findNode, buildGraph, Graph.new] at h
    · rintro ⟨a, b, (he | he), _, _⟩
      · cases he
      · cases he
  | append_singleton es e ih =>
    rw [buildGraph_append]
    have hnodes : ((buildGraph es).addEdge e.1 e.2).nodes =
        addEdgeN (buildGraph es).nodes (getID (buildGraph es).symtab e.1).1
          (getID (getID (buildGraph es).symtab e.1).2 e.2).1 := rfl
    have hsym : ((buildGraph es).addEdge e.1 e.2).symtab =
        (getID (getID (buildGraph es).symtab e.1).2 e.2).2 := rfl
    have hla : lookupName ((buildGraph es).addEdge e.1 e.2).symtab e.1
        = some (getID (buildGraph es).symtab e.1).1 := by
      rw [hsym]
      exact getID_preserve (getID_lookup_self _ e.1) e.2
    have hlb : lookupName ((buildGraph es).addEdge e.1 e.2).symtab e.2
        = some (getID (getID (buildGraph es).symtab e.1).2 e.2).1 := by
      rw [hsym]
      exact getID_lookup_self _ e.2
    have hstab : ∀ x j, lookupName (buildGraph es).symtab x = some j →
        lookupName ((buildGraph es).addEdge e.1 e.2).symtab x = some j := by
      intro x j hx
      rw [hsym]
      exact getID_preserve (getID_preserve hx e.1) e.2
    have hvals : ((((buildGraph es).addEdge e.1 e.2).symtab).map Prod.snd).Nodup := by
      rw [(gwf_addEdge (buildGraph_wf es) e.1 e.2).st_ids]
      exact List.nodup_range _
    rw [hnodes, mem_adj_addEdgeN, ih]
    constructor
    · rintro (⟨a, b, he, hu2, hv2⟩ | ⟨rfl, rfl⟩ | ⟨rfl, rfl⟩)
      · refine ⟨a, b, ?_, hstab a u hu2, hstab b v hv2⟩
        rcases he with h1 | h1
        · exact Or.inl (List.mem_append_left _ h1)
        · exact Or.inr (List.mem_append_left _ h1)
      · refine ⟨e.1, e.2, ?_, hla, hlb⟩
        exact Or.inl (List.mem_append_right _ (by simp))
      · refine ⟨e.2, e.1, ?_, hlb, hla⟩
        exact Or.inr (List.mem_append_right _ (by simp))
    · rintro ⟨a, b, he, hu2, hv2⟩
      have hsplit : EdgeIn es a b ∨ (a = e.1 ∧ b = e.2) ∨ (a = e.2 ∧ b = e.1) := by
        rcases he with h1 | h1
        · rcases List.mem_append.mp h1 with h2 | h2
          · exact Or.inl (Or.inl h2)
          · have h3 := List.mem_singleton.mp h2
            exact Or.inr (Or.inl ⟨congrArg Prod.fst h3, congrArg Prod.snd h3⟩)
        · rcases List.mem_append.mp h1 with h2 | h2
          · exact Or.inl (Or.inr h2)
          · have h3 := List.mem_singleton.mp h2
            exact Or.inr (Or.inr ⟨congrArg Prod.snd h3, congrArg Prod.fst h3⟩)
      rcases hsplit with hold | ⟨rfl, rfl⟩ | ⟨rfl, rfl⟩
      · have hocc := edgeIn_occurs hold
        obtain ⟨u0, hu0⟩ :=
          lookupName_isSome_of_mem ((mem_names_build es a).mpr hocc.1)
        obtain ⟨v0, hv0⟩ :=
          lookupName_isSome_of_mem ((mem_names_build es b).mpr hocc.2)
        have heu : u0 = u := by
          have h4 := hstab a u0 hu0
          rw [hu2] at h4
          injection h4 with h4
          exact h4.symm
        have hev : v0 = v := by
          have h4 := hstab b v0 hv0
          rw [hv2] at h4
          injection h4 with h4
          exact h4.symm
        rw [heu] at hu0
        rw [hev] at hv0
        exact Or.inl ⟨a, b, hold, hu0, hv0⟩
      · rw [hla] at hu2
        rw [hlb] at hv2
        injection hu2 with hu2
        injection hv2 with hv2
        exact Or.inr (Or.inl ⟨hu2.symm, hv2.symm⟩)
      · rw [hlb] at hu2
        rw [hla] at hv2
        injection hu2 with hu2
        injection hv2 with hv2
        exact Or.inr (Or.inr ⟨hu2.symm, hv2.symm⟩)

/-! ## Distances correspond between ids and names -/

theorem build_vals_nodup (es : List (String × String)) :
    (((buildGraph es).symtab).map Prod.snd).Nodup := by
  rw [(buildGraph_wf es).st_ids]
  exact List.nodup_range _

theorem npath_to_path (es : List (String × String)) {a b : String} {k : Nat}
    (h : NPath es a b k) :
    ∀ {u v : Nat}, lookupName (buildGraph es).symtab a = some u →
      lookupName (buildGraph es).symtab b = some v →
      PathLen (buildGraph es).nodes u v k := by
  induction h with
  | refl x =>
    intro u v hu hv
    rw [hu] at hv
    injection hv with hv
    rw [hv]
    exact PathLen.refl v
  | step he htail ih =>
    rename_i a1 b1 c1 k1
    intro u v hu hv
    obtain ⟨w, hw⟩ :=
      lookupName_isSome_of_mem ((mem_names_build es b1).mpr (edgeIn_occurs he).2)
    exact PathLen.step ((adj_build es u w).mpr ⟨a1, b1, he, hu, hw⟩) (ih hw hv)

theorem path_to_npath (es : List (String × String)) :
    ∀ {u v k : Nat}, PathLen (buildGraph es).nodes u v k →
    ∀ {a : String}, lookupName (buildGraph es).symtab a = some u →
      ∃ b, lookupName (buildGraph es).symtab b = some v ∧ NPath es a b k := by
  intro u v k h
  induction h with
  | refl x =>
    intro a ha
    exact ⟨a, ha, NPath.refl a⟩
  | step hx htail ih =>
    rename_i u1 v1 w1 k1
    intro a ha
    obtain ⟨a1, b1, he, hu1, hv1⟩ := (adj_build es u1 v1).mp hx
    have haa1 : a1 = a := lookupName_inj (build_vals_nodup es) hu1 ha
    obtain ⟨b, hb, hp⟩ := ih hv1
    exact ⟨b, hb, NPath.step (haa1 ▸ he) hp⟩

theorem nisDist_of_isDist (es : List (String × String)) {u v d : Nat}
    (hd : IsDist (buildGraph es).nodes u v d) {a b : String}
    (ha : lookupName (buildGraph es).symtab a = some u)
    (hb : lookupName (buildGraph es).symtab b = some v) : NIsDist es a b d := by
  obtain ⟨b', hb', hp⟩ := path_to_npath es hd.1 ha
  have hbb : b' = b := lookupName_inj (build_vals_nodup es) hb' hb
  refine ⟨hbb ▸ hp, ?_⟩
  intro k hk
  exact hd.2 k (npath_to_path es hk ha hb)

theorem isDist_of_nisDist (es : List (String × String)) {a b : String} {d : Nat}
    (hd : NIsDist es a b d) {u v : Nat}
    (ha : lookupName (buildGraph es).symtab a = some u)
    (hb : lookupName (buildGraph es).symtab b = some v) :
    IsDist (buildGraph es).nodes u v d := by
  refine ⟨npath_to_path es hd.1 ha hb, ?_⟩
  intro k hk
  obtain ⟨b', hb', hp⟩ := path_to_npath es hk ha
  have hbb : b' = b := lookupName_inj (build_vals_nodup es) hb' hb
  exact hd.2 k (hbb ▸ hp)

theorem npath_end_occurs {es : List (String × String)} :
    ∀ {k : Nat} {a b : String}, NPath es a b (k + 1) → OccursIn es b := by
  intro k
  induction k with
  | zero =>
    intro a b h
    cases h with
    | step he ht =>
      cases ht
      exact (edgeIn_occurs he).2
  | succ k ih =>
    intro a b h
    cases h with
    | step he ht => exact ih ht

theorem ndiamSpec_iff (es : List (String × String)) (r : Nat) :
    DiamSpec (buildGraph es).nodes r ↔ NDiamSpec es r := by
  constructor
  · intro hs
    constructor
    · intro a b d hd
      cases d with
      | zero => exact Nat.zero_le _
      | succ k =>
        have hocca : OccursIn es a := by
          cases hd.1 with
          | step he _ => exact (edgeIn_occurs he).1
        have hoccb : OccursIn es b := npath_end_occurs hd.1
        obtain ⟨u, hu⟩ :=
          lookupName_isSome_of_mem ((mem_names_build es a).mpr hocca)
        obtain ⟨v, hv⟩ :=
          lookupName_isSome_of_mem ((mem_names_build es b).mpr hoccb)
        exact hs.1 u v (k + 1) (isDist_of_nisDist es hd hu hv)
    · rcases hs.2 with h0 | ⟨u, v, hd⟩
      · exact Or.inl h0
      · cases hr : r with
        | zero => exact Or.inl rfl
        | succ k =>
          rw [hr] at hd
          right
          cases hp1 : hd.1 with
          | step hx htail =>
            obtain ⟨a1, b1, _, hu1, _⟩ := (adj_build es u _).mp hx
            obtain ⟨b, hb, _⟩ := path_to_npath es hd.1 hu1
            exact ⟨a1, b, nisDist_of_isDist es hd hu1 hb⟩
  · intro hs
    constructor
    · intro u v d hd
      cases d with
      | zero => exact Nat.zero_le _
      | succ k =>
        cases hp1 : hd.1 with
        | step hx htail =>
          obtain ⟨a1, b1, _, hu1, _⟩ := (adj_build es u _).mp hx
          obtain ⟨b, hb, _⟩ := path_to_npath es hd.1 hu1
          exact hs.1 a1 b (k + 1) (nisDist_of_isDist es hd hu1 hb)
    · rcases hs.2 with h0 | ⟨a, b, hnd⟩
      · exact Or.inl h0
      · cases hr : r with
        | zero => exact Or.inl rfl
        | succ k =>
          rw [hr] at hnd
          have hocca : OccursIn es a := by
            cases hnd.1 with
            | step he _ => exact (edgeIn_occurs he).1
          have hoccb : OccursIn es b := npath_end_occurs hnd.1
          obtain ⟨u, hu⟩ :=
            lookupName_isSome_of_mem ((mem_names_build es a).mpr hocca)
          obtain ⟨v, hv⟩ :=
            lookupName_isSome_of_mem ((mem_names_build es b).mpr hoccb)
          exact Or.inr ⟨u, v, isDist_of_nisDist es hnd hu hv⟩

theorem edgeIn_perm {es1 es2 : List (String × String)} (h : es1.Perm es2)
    {a b : String} : EdgeIn es1 a b ↔ EdgeIn es2 a b := by
  unfold EdgeIn
  rw [h.mem_iff, h.mem_iff]

theorem npath_perm {es1 es2 : List (String × String)} (h : es1.Perm es2)
    {a b : String} {k : Nat} (hp : NPath es1 a b k) : NPath es2 a b k := by
  induction hp with
  | refl x => exact NPath.refl x
  | step he _ ih => exact NPath.step ((edgeIn_perm h).mp he) ih

theorem nisDist_perm {es1 es2 : List (String × String)} (h : es1.Perm es2)
    {a b : String} {d : Nat} (hd : NIsDist es1 a b d) : NIsDist es2 a b d :=
  ⟨npath_perm h hd.1, fun k hk => hd.2 k (npath_perm h.symm hk)⟩

theorem ndiamSpec_perm {es1 es2 : List (String × String)} (h : es1.Perm es2)
    {r : Nat} (hs : NDiamSpec es1 r) : NDiamSpec es2 r := by
  constructor
  · intro a b d hd
    exact hs.1 a b d (nisDist_perm h.symm hd)
  · rcases hs.2 with h0 | ⟨a, b, hd⟩
    · exact Or.inl h0
    · exact Or.inr ⟨a, b, nisDist_perm h hd⟩

/-! ## Shared concrete facts -/

theorem connected_ab : ConnectedG (buildGraph [("a", "b")]) := by
  intro u v hu hv
  have hids : idsOf (buildGraph [("a", "b")]).nodes = [0, 1] := by decide
  have hadj01 : 1 ∈ adjOf (buildGraph [("a", "b")]).nodes 0 := by decide
  have hadj10 : 0 ∈ adjOf (buildGraph [("a", "b")]).nodes 1 := by decide
  rw [hids] at hu hv
  rcases List.mem_cons.mp hu with rfl | hu2
  · rcases List.mem_cons.mp hv with rfl | hv2
    · exact ⟨0, PathLen.refl 0⟩
    · rw [List.mem_singleton.mp hv2]
      exact ⟨1, PathLen.step hadj01 (PathLen.refl 1)⟩
  · rw [List.mem_singleton.mp hu2]
    rcases List.mem_cons.mp hv with rfl | hv2
    · exact ⟨1, PathLen.step hadj10 (PathLen.refl 0)⟩
    · rw [List.mem_singleton.mp hv2]
      exact ⟨0, PathLen.refl 1⟩

/-! ## The claims -/

/-- C1: for every graph built by a sequence of `addEdge` calls, `diameter()`
returns the maximum, over all pairs of nodes lying in the same connected
component, of the shortest-path distance in edge hops between them (it is an
upper bound of every pairwise shortest distance and is attained whenever the
graph has a node); for a graph with zero nodes (no `addEdge` calls) it
returns `0`. -/
theorem claim_C1 (es : List (String × String)) :
    (es = [] → (buildGraph es).diameter = 0) ∧
    (∀ u v d, IsDist (buildGraph es).nodes u v d → d ≤ (buildGraph es).diameter) ∧
    ((buildGraph es).nodes ≠ [] →
      ∃ u v, IsDist (buildGraph es).nodes u v (buildGraph es).diameter) := by
  refine ⟨?_, ?_, ?_⟩
  · rintro rfl
    rfl
  · intro u v d hd
    exact (diameterN_spec (buildGraph es).nodes).1 u v d hd
  · intro hne
    rcases (diameterN_spec (buildGraph es).nodes).2 with h0 | hex
    · obtain ⟨n, hn⟩ := List.exists_mem_of_ne_nil _ hne
      refine ⟨n.id, n.id, ?_⟩
      show IsDist (buildGraph es).nodes n.id n.id (diameterN (buildGraph es).nodes)
      rw [h0]
      exact isDist_self _ _
    · exact hex

/-- C2: for every node `v` present in the graph, `longestShortestPath(v)`
returns the depth of the last node dequeued by the BFS, this value is the
maximum depth reached during the traversal, and it is the eccentricity of
`v`: the maximum shortest-path hop distance from `v` to any reachable
node. -/
theorem claim_C2 (es : List (String × String)) (v : Nat)
    (hv : v ∈ idsOf (buildGraph es).nodes) :
    ∃ pr : Nat × List (Nat × Nat),
      bfsLoop (buildGraph es).nodes
        (2 * (allTargets (buildGraph es).nodes).length + 2) [v] [(v, 0)] v
        = some pr ∧
      lspN (buildGraph es).nodes v = lookupD pr.2 pr.1 ∧
      (∀ i ∈ keysD pr.2, lookupD pr.2 i ≤ lspN (buildGraph es).nodes v) ∧
      IsEcc (buildGraph es).nodes v (lspN (buildGraph es).nodes v) := by
  obtain ⟨pr, hpr, heq, hpost⟩ := lspS_run (buildGraph es).nodes v
  have hget : (getN (buildGraph es).nodes v).2 = (buildGraph es).nodes :=
    getN_of_mem hv
  rw [hget] at hpr heq hpost
  have hval : lspN (buildGraph es).nodes v = lookupD pr.2 pr.1 := by
    simp only [lspN, heq]
  refine ⟨pr, hpr, hval, ?_, lspN_ecc _ v⟩
  intro i hi
  rw [hval]
  exact hpost.proc_le i hi (List.not_mem_nil i)

theorem claim_C2_witness :
    0 ∈ idsOf (buildGraph [("a", "b")]).nodes ∧
    (∃ pr : Nat × List (Nat × Nat),
      bfsLoop (buildGraph [("a", "b")]).nodes
        (2 * (allTargets (buildGraph [("a", "b")]).nodes).length + 2)
        [0] [(0, 0)] 0 = some pr ∧
      lspN (buildGraph [("a", "b")]).nodes 0 = lookupD pr.2 pr.1 ∧
      (∀ i ∈ keysD pr.2, lookupD pr.2 i ≤ lspN (buildGraph [("a", "b")]).nodes 0) ∧
      IsEcc (buildGraph [("a", "b")]).nodes 0
        (lspN (buildGraph [("a", "b")]).nodes 0)) :=
  ⟨by decide, claim_C2 [("a", "b")] 0 (by decide)⟩

/-- C3: the seven concrete scenarios of the spec, built by `AddEdge` calls in
the listed order, yield exactly the listed diameters. -/
theorem claim_C3 :
    (buildGraph []).diameter = 0 ∧
    (buildGraph [("a", "b")]).diameter = 1 ∧
    (buildGraph [("a", "b"), ("b", "c")]).diameter = 2 ∧
    (buildGraph [("a", "b"), ("b", "c"), ("c", "d")]).diameter = 3 ∧
    (buildGraph [("a", "b"), ("b", "c"), ("a", "c")]).diameter = 1 ∧
    (buildGraph [("a", "b"), ("b", "c"), ("c", "d"), ("a", "d")]).diameter = 2 ∧
    (buildGraph [("a", "b"), ("b", "c"), ("c", "a"), ("c", "d"), ("d", "e"),
      ("e", "c")]).diameter = 2 := by
  refine ⟨rfl, ?_, ?_, ?_, ?_, ?_, ?_⟩ <;> decide

/-- C4: inserting the same edge a second time changes nothing: the whole
`Graph` value, hence `diameter()` and the number of distinct nodes, are
unchanged. -/
theorem claim_C4 (es : List (String × String)) (a b : String) :
    ((buildGraph es).addEdge a b).addEdge a b = (buildGraph es).addEdge a b ∧
    (((buildGraph es).addEdge a b).addEdge a b).diameter
      = ((buildGraph es).addEdge a b).diameter ∧
    ((((buildGraph es).addEdge a b).addEdge a b).nodes).length
      = (((buildGraph es).addEdge a b).nodes).length := by
  have h := addEdge_idem (buildGraph_wf es).ids_nd a b
  exact ⟨h, by rw [h], by rw [h]⟩

/-- C5: after every sequence of `addEdge` calls starting from a new graph,
adjacency is symmetric. -/
theorem claim_C5 (es : List (String × String)) (u v : Nat)
    (h : v ∈ adjOf (buildGraph es).nodes u) :
    u ∈ adjOf (buildGraph es).nodes v :=
  buildGraph_sym es u v h

theorem claim_C5_witness :
    1 ∈ adjOf (buildGraph [("a", "b")]).nodes 0 ∧
    0 ∈ adjOf (buildGraph [("a", "b")]).nodes 1 :=
  ⟨by decide, claim_C5 [("a", "b")] 0 1 (by decide)⟩

/-- C6: for every list of edges and every permutation of it, building a fresh
graph from each order yields the same `diameter()` value. -/
theorem claim_C6 (es1 es2 : List (String × String)) (h : es1.Perm es2) :
    (buildGraph es1).diameter = (buildGraph es2).diameter := by
  have h1 : DiamSpec (buildGraph es2).nodes (buildGraph es1).diameter := by
    rw [ndiamSpec_iff]
    exact ndiamSpec_perm h ((ndiamSpec_iff es1 _).mp (diameterN_spec _))
  exact diamSpec_unique h1 (diameterN_spec _)

theorem claim_C6_witness :
    ([(("a" : String), ("b" : String)), ("b", "c")]).Perm [("b", "c"), ("a", "b")] ∧
    (buildGraph [("a", "b"), ("b", "c")]).diameter
      = (buildGraph [("b", "c"), ("a", "b")]).diameter :=
  ⟨by decide, claim_C6 [("a", "b"), ("b", "c")] [("b", "c"), ("a", "b")] (by decide)⟩

/-- C7 (counterexample to the claim as stated): the graph built from the
single edge (a,b) has all its nodes in one connected component, yet the
additional call `addEdge(b,c)` strictly increases `diameter()` (it creates
the new node c and lengthens the longest shortest path from 1 to 2). -/
theorem claim_C7_counterexample :
    ConnectedG (buildGraph [("a", "b")]) ∧
    (buildGraph [("a", "b")]).diameter <
      ((buildGraph [("a", "b")]).addEdge "b" "c").diameter :=
  ⟨connected_ab, by decide⟩

/-- C7 (amended): for every built graph whose nodes form a single connected
component, an additional `addEdge` call whose two names are both already
present in the symbol table never increases `diameter()`. -/
theorem claim_C7_amended (es : List (String × String)) (a b : String)
    (ha : a ∈ ((buildGraph es).symtab).map Prod.fst)
    (hb : b ∈ ((buildGraph es).symtab).map Prod.fst)
    (hconn : ConnectedG (buildGraph es)) :
    ((buildGraph es).addEdge a b).diameter ≤ (buildGraph es).diameter := by
  have hwf : GWF (buildGraph es) := buildGraph_wf es
  obtain ⟨ia, hia⟩ := lookupName_isSome_of_mem ha
  obtain ⟨ib, hib⟩ := lookupName_isSome_of_mem hb
  have e1 : getID (buildGraph es).symtab a = (ia, (buildGraph es).symtab) :=
    getID_of_some hia
  have e2 : getID (buildGraph es).symtab b = (ib, (buildGraph es).symtab) :=
    getID_of_some hib
  have hnodes : ((buildGraph es).addEdge a b).nodes =
      addEdgeN (buildGraph es).nodes ia ib := by
    rw [Graph.addEdge_def, e1]
    simp only [e2]
  have hia_mem : ia ∈ idsOf (buildGraph es).nodes := by
    have h1 : ia ∈ ((buildGraph es).symtab).map Prod.snd :=
      List.mem_map.mpr ⟨(a, ia), lookupName_mem hia, rfl⟩
    rw [hwf.st_ids] at h1
    exact hwf.ids_cover ia (List.mem_range.mp h1)
  have hib_mem : ib ∈ idsOf (buildGraph es).nodes := by
    have h1 : ib ∈ ((buildGraph es).symtab).map Prod.snd :=
      List.mem_map.mpr ⟨(b, ib), lookupName_mem hib, rfl⟩
    rw [hwf.st_ids] at h1
    exact hwf.ids_cover ib (List.mem_range.mp h1)
  have hids : idsOf ((buildGraph es).addEdge a b).nodes
      = idsOf (buildGraph es).nodes := by
    rw [hnodes]
    exact idsOf_addEdgeN_of_mem hia_mem hib_mem
  rcases (diameterN_spec ((buildGraph es).addEdge a b).nodes).2 with h0 | ⟨u, v, hd⟩
  · show diameterN ((buildGraph es).addEdge a b).nodes ≤ _
    rw [h0]
    exact Nat.zero_le _
  · cases hr : diameterN ((buildGraph es).addEdge a b).nodes with
    | zero =>
      show diameterN ((buildGraph es).addEdge a b).nodes ≤ _
      rw [hr]
      exact Nat.zero_le _
    | succ k =>
      rw [hr] at hd
      have hu : u ∈ idsOf ((buildGraph es).addEdge a b).nodes :=
        pathLen_start_mem hd.1
      have hv : v ∈ idsOf ((buildGraph es).addEdge a b).nodes :=
        pathLen_end_mem (gwf_addEdge hwf a b).adj_closed hd.1
      rw [hids] at hu hv
      obtain ⟨d0, hd0⟩ := reach_isDist (hconn u v hu hv)
      have hmono : ∀ x y, y ∈ adjOf (buildGraph es).nodes x →
          y ∈ adjOf ((buildGraph es).addEdge a b).nodes x := by
        intro x y hy
        rw [hnodes]
        exact mem_adj_addEdgeN.mpr (Or.inl hy)
      have h1 : k + 1 ≤ d0 := hd.2 d0 (pathLen_mono hmono hd0.1)
      have h2 : d0 ≤ diameterN (buildGraph es).nodes :=
        (diameterN_spec (buildGraph es).nodes).1 u v d0 hd0
      show diameterN ((buildGraph es).addEdge a b).nodes ≤
        diameterN (buildGraph es).nodes
      rw [hr]
      omega

theorem claim_C7_witness :
    ("a" ∈ ((buildGraph [("a", "b")]).symtab).map Prod.fst) ∧
    ("b" ∈ ((buildGraph [("a", "b")]).symtab).map Prod.fst) ∧
    ConnectedG (buildGraph [("a", "b")]) ∧
    ((buildGraph [("a", "b")]).addEdge "a" "b").diameter ≤
      (buildGraph [("a", "b")]).diameter :=
  ⟨by decide, by decide, connected_ab,
    claim_C7_amended [("a", "b")] "a" "b" (by decide) (by decide) connected_ab⟩

/-- C8: `addEdge(a,a)` is accepted and makes the node of `a` adjacent to
itself, and this self-adjacency has no effect on `diameter()`: the diameter
equals that of the same node map with node `a` present but its
self-adjacency removed. -/
theorem claim_C8 (es : List (String × String)) (a : String) :
    (getID (buildGraph es).symtab a).1 ∈
      adjOf ((buildGraph es).addEdge a a).nodes
        (getID (buildGraph es).symtab a).1 ∧
    diameterN ((buildGraph es).addEdge a a).nodes =
      diameterN (removeSelfAdj ((buildGraph es).addEdge a a).nodes
        (getID (buildGraph es).symtab a).1) := by
  have hib : (getID (getID (buildGraph es).symtab a).2 a).1
      = (getID (buildGraph es).symtab a).1 := by
    rw [getID_of_some (getID_lookup_self (buildGraph es).symtab a)]
  have h0 : ((buildGraph es).addEdge a a).nodes =
      addEdgeN (buildGraph es).nodes (getID (buildGraph es).symtab a).1
        (getID (getID (buildGraph es).symtab a).2 a).1 := rfl
  have hnodes : ((buildGraph es).addEdge a a).nodes =
      addEdgeN (buildGraph es).nodes (getID (buildGraph es).symtab a).1
        (getID (buildGraph es).symtab a).1 := by
    rw [h0, hib]
  refine ⟨?_, diameterN_remove_self _ _⟩
  rw [hnodes]
  exact mem_adj_addEdgeN.mpr (Or.inr (Or.inl ⟨rfl, rfl⟩))

/-- C9: `diameter()` does not mutate the graph: threading the node-map state
through every BFS of the computation returns the `Graph` unchanged (same
symbol table, same node set, same adjacency sets). -/
theorem claim_C9 (g : Graph) : g.diameterStateful = (g.diameter, g) :=
  diameterStateful_eq g

/-- C10: the BFS of `longestShortestPath` terminates on every finite node
map: with the fuel `lspS` supplies, the queue empties and the loop returns;
the discovered set has no duplicate ids, i.e. every node is marked, enqueued
and dequeued at most once. -/
theorem claim_C10 (ns : Nodes) (start : Nat) :
    ∃ pr : Nat × List (Nat × Nat),
      bfsLoop ns (2 * (allTargets ns).length + 2) [start] [(start, 0)] start
        = some pr ∧ (keysD pr.2).Nodup := by
  have hklen : (keysD [(start, 0)]).length = 1 := rfl
  obtain ⟨pr, hpr, hpost⟩ :=
    bfsLoop_sound ns start (2 * (allTargets ns).length + 2) [start]
      [(start, 0)] start (bfsInv_init ns start) (by rw [hklen]; simp; omega)
  exact ⟨pr, hpr, hpost.keys_nd⟩
